import Mathlib

/-!
Verification of the warikan (bill-splitting) settlement engine.

The engine lives in the `get_group` route of `main.py`:
* an allocator builds a per-member dict `settlement` mapping member id to
  `{name, paid, owed, balance}` and distributes every expense over its
  target members with floor division and remainder handling;
* a two-pointer greedy matcher turns the balances into a list of
  settling transactions.

A second file, `app.py`, holds a simpler variant keyed by payer name whose
`settlement` route divides the total by the number of distinct payers with
true division; that division is modelled with exact rationals (which agree
with Python's division on whether a result is an integer).

Python specifics mirrored here: `//` and `%` on Python ints are floor
division and nonnegative remainder for positive divisors, which coincide
with Lean's `/` and `%` on `Int`; dicts preserve insertion order and
assignment to an existing key keeps its position; `list.sort` is stable.
-/

set_option linter.unusedVariables false

/-- A group member: database id and display name (the `Member` model of `main.py`). -/
structure Member where
  id : Nat
  name : String
deriving DecidableEq, Repr

/-- An expense: description, amount, the payer's member id, and the ordered
list of target members (the `Expense` model of `main.py`). -/
structure Expense where
  description : String
  amount : Int
  payer_id : Nat
  targets : List Member
deriving DecidableEq, Repr

/-- One value of the `settlement` dict built in `get_group`:
`{"name": ..., "paid": 0, "owed": 0, "balance": 0}`. -/
structure Entry where
  name : String
  paid : Int
  owed : Int
  balance : Int
deriving DecidableEq, Repr

/-- The `settlement` dict, as an insertion-ordered association list keyed by
member id (Python dicts preserve insertion order). -/
abbrev SettleMap := List (Nat × Entry)

/-- Key membership test, `member_id in settlement`. -/
def hasKey : SettleMap → Nat → Bool
  | [], _ => false
  | p :: s, k => p.1 == k || hasKey s k

/-- The key list of the settlement dict. -/
def keysOf (s : SettleMap) : List Nat := s.map Prod.fst

/-- `settlement[k]["owed"]` — the owed field of the entry with key `k`
(first match; 0 when the key is absent). -/
def getOwed : SettleMap → Nat → Int
  | [], _ => 0
  | p :: s, k => if p.1 = k then p.2.owed else getOwed s k

/-- `settlement[k]["paid"]` — the paid field of the entry with key `k`
(first match; 0 when the key is absent). -/
def getPaid : SettleMap → Nat → Int
  | [], _ => 0
  | p :: s, k => if p.1 = k then p.2.paid else getPaid s k

/-- `settlement[k]["paid"] += a`. -/
def addPaid (s : SettleMap) (k : Nat) (a : Int) : SettleMap :=
  s.map fun p => if p.1 = k then (p.1, { p.2 with paid := p.2.paid + a }) else p

/-- `settlement[k]["owed"] += a`. -/
def addOwed (s : SettleMap) (k : Nat) (a : Int) : SettleMap :=
  s.map fun p => if p.1 = k then (p.1, { p.2 with owed := p.2.owed + a }) else p

/-- One step of the dict comprehension
`{m.id: {"name": m.name, "paid": 0, "owed": 0, "balance": 0} for m in group.members}`:
assignment to an existing key keeps its position and overwrites the value,
a new key is appended. -/
def insertMember (s : SettleMap) (m : Member) : SettleMap :=
  if hasKey s m.id then
    s.map fun p => if p.1 = m.id then (p.1, ⟨m.name, 0, 0, 0⟩) else p
  else s ++ [(m.id, ⟨m.name, 0, 0, 0⟩)]

/-- The initial `settlement` dict built from the group's member list. -/
def initSettlement (members : List Member) : SettleMap :=
  members.foldl insertMember []

/-- The inner loop `for i, target_member in enumerate(expense.targets)`:
target `i` accrues `split_amount + (1 if i < remainder else 0)` to its owed
field, and targets whose id is not a key of `settlement` are skipped. -/
def distribTargets (split rem : Int) : List Member → Nat → SettleMap → SettleMap
  | [], _, s => s
  | t :: ts, i, s =>
    distribTargets split rem ts (i + 1)
      (if hasKey s t.id then addOwed s t.id (split + (if (i : Int) < rem then 1 else 0)) else s)

/-- Processing of one expense in `get_group`: the payer's paid field accrues
the amount when the payer is a key of `settlement`; when the target list is
non-empty, `split_amount = amount // num_targets` and
`remainder = amount % num_targets` are distributed over the targets. -/
def applyExpense (s : SettleMap) (e : Expense) : SettleMap :=
  let s1 := if hasKey s e.payer_id then addPaid s e.payer_id e.amount else s
  if e.targets.isEmpty then s1
  else distribTargets (e.amount / (e.targets.length : Int))
    (e.amount % (e.targets.length : Int)) e.targets 0 s1

/-- The final pass `data["balance"] = data["paid"] - data["owed"]`. -/
def finalizeBalances (s : SettleMap) : SettleMap :=
  s.map fun p => (p.1, { p.2 with balance := p.2.paid - p.2.owed })

/-- The whole allocator of `get_group`: initialize the settlement dict,
fold over the group's expenses in stored order, then compute balances. -/
def allocate (members : List Member) (expenses : List Expense) : SettleMap :=
  finalizeBalances (expenses.foldl applyExpense (initSettlement members))

/-- Sum of the paid fields of a settlement dict. -/
def sumPaid (s : SettleMap) : Int := (s.map fun p => p.2.paid).sum

/-- Sum of the owed fields of a settlement dict. -/
def sumOwed (s : SettleMap) : Int := (s.map fun p => p.2.owed).sum

/-- Sum of the balance fields of a settlement dict. -/
def sumBalances (s : SettleMap) : Int := (s.map fun p => p.2.balance).sum

/-- A `[name, balance]` pair as used by the matcher's debtor/creditor lists. -/
abbrev Bal := String × Int

/-- Default value handed to `List.getD`; the matcher only reads in-range
indices, where the default is irrelevant. -/
def dflt : Bal := ("", 0)

/-- One emitted settling transaction; `main.py` renders it as the string
`f"{debtor[0]} は {creditor[0]} に {amount:,} 円支払う"`, whose data content
is the (source, destination, amount) triple. -/
structure Txn where
  src : String
  dst : String
  amount : Int
deriving DecidableEq, Repr

/-- Stable insertion into an ascending-by-balance list (ties keep the
earlier element first, as Python's stable `sort`). -/
def insertAsc (a : Bal) : List Bal → List Bal
  | [] => [a]
  | b :: l => if a.2 ≤ b.2 then a :: b :: l else b :: insertAsc a l

/-- `debtors.sort(key=lambda x: x[1])` — stable ascending sort by balance. -/
def sortAsc : List Bal → List Bal
  | [] => []
  | a :: l => insertAsc a (sortAsc l)

/-- Stable insertion into a descending-by-balance list (ties keep the
earlier element first, as Python's stable `sort`). -/
def insertDesc (a : Bal) : List Bal → List Bal
  | [] => [a]
  | b :: l => if b.2 ≤ a.2 then a :: b :: l else b :: insertDesc a l

/-- `creditors.sort(key=lambda x: x[1], reverse=True)` — stable descending
sort by balance. -/
def sortDesc : List Bal → List Bal
  | [] => []
  | a :: l => insertDesc a (sortDesc l)

/-- The state of the two-pointer matcher loop: the two mutable lists, the
two cursors and the transactions accumulated so far. -/
structure MState where
  debtors : List Bal
  creditors : List Bal
  i : Nat
  j : Nat
  txns : List Txn
deriving DecidableEq, Repr

/-- `debtor = debtors[i]`. -/
def curD (st : MState) : Bal := st.debtors.getD st.i dflt

/-- `creditor = creditors[j]`. -/
def curC (st : MState) : Bal := st.creditors.getD st.j dflt

/-- `amount = min(abs(debtor[1]), creditor[1])`. -/
def txAmount (st : MState) : Int := min |(curD st).2| (curC st).2

/-- The `if amount > 0:` block: emit the transaction and update both
balances in place. -/
def pay (st : MState) : MState :=
  if 0 < txAmount st then
    { st with
      txns := st.txns ++ [⟨(curD st).1, (curC st).1, txAmount st⟩],
      debtors := st.debtors.set st.i ((curD st).1, (curD st).2 + txAmount st),
      creditors := st.creditors.set st.j ((curC st).1, (curC st).2 - txAmount st) }
  else st

/-- The cursor updates `if abs(debtor[1]) == 0: i += 1` and
`if abs(creditor[1]) == 0: j += 1`, both reading the updated balances. -/
def advanceCursors (st : MState) : MState :=
  { st with
    i := if |(curD st).2| = 0 then st.i + 1 else st.i,
    j := if |(curC st).2| = 0 then st.j + 1 else st.j }

/-- One iteration of the `while` loop body. -/
def stepIter (st : MState) : MState := advanceCursors (pay st)

/-- The guard `while i < len(debtors) and j < len(creditors)`. -/
def loopGuard (st : MState) : Prop :=
  st.i < st.debtors.length ∧ st.j < st.creditors.length

instance (st : MState) : Decidable (loopGuard st) :=
  inferInstanceAs (Decidable (_ ∧ _))

/-- The matcher's `while` loop, run for at most `fuel` iterations (the
termination theorem shows `len(debtors) + len(creditors)` iterations always
reach the exit condition, so the fueled loop equals the unbounded one). -/
def settleLoop : Nat → MState → MState
  | 0, st => st
  | n + 1, st => if loopGuard st then settleLoop n (stepIter st) else st

/-- The matcher's initial state: partition the balances into debtors
(`balance < 0`) and creditors (`balance > 0`), sort as in `main.py`. -/
def settleInit (balances : List Bal) : MState :=
  { debtors := sortAsc (balances.filter fun p => p.2 < 0),
    creditors := sortDesc (balances.filter fun p => 0 < p.2),
    i := 0, j := 0, txns := [] }

/-- Run the matcher loop to completion from the initial state. -/
def settleRun (balances : List Bal) : MState :=
  settleLoop ((settleInit balances).debtors.length + (settleInit balances).creditors.length)
    (settleInit balances)

/-- The settlement matcher of `get_group`: the transactions produced by the
two-pointer sweep. -/
def settle (balances : List Bal) : List Txn := (settleRun balances).txns

/-- The `(name, balance)` view of `settlement.values()` handed to the
matcher. -/
def balancesOf (s : SettleMap) : List Bal := s.map fun p => (p.2.name, p.2.balance)

/-- The full pure engine of `get_group`: allocate, then settle. -/
def groupSettlement (members : List Member) (expenses : List Expense) :
    SettleMap × List Txn :=
  (allocate members expenses, settle (balancesOf (allocate members expenses)))

/-- Net effect of a transaction list on the member named `x`: each
transaction credits its source (shrinking a deficit) and debits its
destination (shrinking a surplus). -/
def net (ts : List Txn) (x : String) : Int :=
  (ts.map fun t => (if t.src = x then t.amount else 0) - (if t.dst = x then t.amount else 0)).sum

/-- Apply one transaction to a balances map: add the amount to the source's
balance and subtract it from the destination's balance. -/
def applyTx (bal : List Bal) (t : Txn) : List Bal :=
  bal.map fun p =>
    (p.1, p.2 + (if t.src = p.1 then t.amount else 0) - (if t.dst = p.1 then t.amount else 0))

/-- Apply a transaction list to a balances map, in order. -/
def applyTxns (bal : List Bal) (ts : List Txn) : List Bal := ts.foldl applyTx bal

/-- Sum of the balances of a `(name, balance)` list. -/
def sumSnd (l : List Bal) : Int := (l.map Prod.snd).sum

/-- Sum of the shares handed to targets `i0, i0+1, ...` of a split:
target `i` receives `split + (1 if i < rem else 0)`. -/
def sharesSum (split rem : Int) : Nat → Nat → Int
  | _, 0 => 0
  | i0, n + 1 => (split + (if (i0 : Int) < rem then 1 else 0)) + sharesSum split rem (i0 + 1) n

/-- One step of `summary[payer] = summary.get(payer, 0) + amount` in
`app.py`: existing keys accumulate in place, new keys are appended. -/
def addSummaryRow (s : List Bal) (payer : String) (amount : Int) : List Bal :=
  if s.any fun p => p.1 == payer then
    s.map fun p => if p.1 = payer then (p.1, p.2 + amount) else p
  else s ++ [(payer, amount)]

/-- The per-payer totals dict of `app.py`'s `settlement` route. -/
def appSummary (rows : List Bal) : List Bal :=
  rows.foldl (fun s r => addSummaryRow s r.1 r.2) []

/-- `per_person = total / len(members)` in `app.py`: true division, modelled
with exact rationals. -/
def appPerPerson (rows : List Bal) : ℚ :=
  (((appSummary rows).map Prod.snd).sum : ℚ) / ((appSummary rows).length : ℚ)

/-- `balance = {m: summary[m] - per_person for m in members}` in `app.py`. -/
def appBalance (rows : List Bal) : List (String × ℚ) :=
  (appSummary rows).map fun p => (p.1, (p.2 : ℚ) - appPerPerson rows)

/-- One line of `app.py`'s settlement output: payer name, receiver name and
the truncated amount `int(amount)`. -/
structure AppTxn where
  payName : String
  recvName : String
  amount : Int
deriving DecidableEq, Repr

/-- The matching loop of `app.py`'s `settlement` route (fueled; positives
and negatives are kept unsorted, negatives store `-b > 0`). -/
def appLoop : Nat → List (String × ℚ) → List (String × ℚ) → Nat → Nat →
    List AppTxn → List AppTxn
  | 0, _, _, _, _, acc => acc
  | fuel + 1, pos, neg, i, j, acc =>
    if i < pos.length ∧ j < neg.length then
      let r := pos.getD i ("", 0)
      let p := neg.getD j ("", 0)
      let amount := min r.2 p.2
      let pos1 := pos.set i (r.1, r.2 - amount)
      let neg1 := neg.set j (p.1, p.2 - amount)
      appLoop fuel pos1 neg1
        (if (pos1.getD i ("", 0)).2 = 0 then i + 1 else i)
        (if (neg1.getD j ("", 0)).2 = 0 then j + 1 else j)
        (acc ++ [⟨p.1, r.1, Rat.floor amount⟩])
    else acc

/-- The `settlement` route of `app.py`. When no payments are recorded the
summary is empty and `per_person = total / len(members)` raises
`ZeroDivisionError`; that failure is modelled as `none`. -/
def appSettlement (rows : List Bal) : Option (List AppTxn) :=
  if (appSummary rows).length = 0 then none
  else
    some (appLoop
      (((appBalance rows).filter fun p => 0 < p.2).length
        + (((appBalance rows).filter fun p => p.2 < 0).map fun p => (p.1, -p.2)).length)
      ((appBalance rows).filter fun p => 0 < p.2)
      (((appBalance rows).filter fun p => p.2 < 0).map fun p => (p.1, -p.2))
      0 0 [])

example : allocate [⟨1, "A"⟩, ⟨2, "B"⟩, ⟨3, "C"⟩]
    [⟨"lunch", 100, 1, [⟨1, "A"⟩, ⟨2, "B"⟩, ⟨3, "C"⟩]⟩]
    = [(1, ⟨"A", 100, 34, 66⟩), (2, ⟨"B", 0, 33, -33⟩), (3, ⟨"C", 0, 33, -33⟩)] := by
  decide

example : settle [("A", 66), ("B", -33), ("C", -33)]
    = [⟨"B", "A", 33⟩, ⟨"C", "A", 33⟩] := by decide

example : groupSettlement [⟨1, "A"⟩, ⟨2, "B"⟩]
    [⟨"first", 50, 1, [⟨1, "A"⟩, ⟨2, "B"⟩]⟩, ⟨"second", 30, 2, [⟨1, "A"⟩, ⟨2, "B"⟩]⟩]
    = ([(1, ⟨"A", 50, 40, 10⟩), (2, ⟨"B", 30, 40, -10⟩)], [⟨"B", "A", 10⟩]) := by
  decide

/-! ### Basic facts about the settlement dict operations -/

lemma hasKey_iff (s : SettleMap) (k : Nat) : hasKey s k = true ↔ k ∈ keysOf s := by
  induction s with
  | nil => simp [hasKey, keysOf]
  | cons p s ih =>
    simp only [hasKey, Bool.or_eq_true, beq_iff_eq, keysOf, List.map_cons, List.mem_cons]
    simp only [keysOf] at ih
    rw [ih]
    exact or_congr eq_comm Iff.rfl

lemma getOwed_map_eq (f : Nat × Entry → Nat × Entry)
    (hf : ∀ p, (f p).1 = p.1 ∧ (f p).2.owed = p.2.owed) :
    ∀ (s : SettleMap) (k : Nat), getOwed (s.map f) k = getOwed s k := by
  intro s k
  induction s with
  | nil => rfl
  | cons p s ih => simp only [List.map_cons, getOwed, (hf p).1, (hf p).2, ih]

lemma getPaid_map_eq (f : Nat × Entry → Nat × Entry)
    (hf : ∀ p, (f p).1 = p.1 ∧ (f p).2.paid = p.2.paid) :
    ∀ (s : SettleMap) (k : Nat), getPaid (s.map f) k = getPaid s k := by
  intro s k
  induction s with
  | nil => rfl
  | cons p s ih => simp only [List.map_cons, getPaid, (hf p).1, (hf p).2, ih]

lemma keysOf_map_eq (f : Nat × Entry → Nat × Entry) (hf : ∀ p, (f p).1 = p.1) :
    ∀ s : SettleMap, keysOf (s.map f) = keysOf s := by
  intro s
  induction s with
  | nil => rfl
  | cons p s ih =>
    simp only [keysOf] at ih
    simp only [List.map_cons, keysOf, (hf p), ih]

lemma keysOf_addPaid (s : SettleMap) (k : Nat) (a : Int) :
    keysOf (addPaid s k a) = keysOf s := by
  refine keysOf_map_eq _ (fun p => ?_) s
  by_cases h : p.1 = k <;> simp [h]

lemma keysOf_addOwed (s : SettleMap) (k : Nat) (a : Int) :
    keysOf (addOwed s k a) = keysOf s := by
  refine keysOf_map_eq _ (fun p => ?_) s
  by_cases h : p.1 = k <;> simp [h]

lemma keysOf_distribTargets (split rem : Int) (ts : List Member) (i0 : Nat) (s : SettleMap) :
    keysOf (distribTargets split rem ts i0 s) = keysOf s := by
  induction ts generalizing i0 s with
  | nil => rfl
  | cons t ts ih =>
    simp only [distribTargets]
    rw [ih]
    by_cases h : hasKey s t.id <;> simp [h, keysOf_addOwed]

lemma keysOf_applyExpense (s : SettleMap) (e : Expense) :
    keysOf (applyExpense s e) = keysOf s := by
  simp only [applyExpense]
  by_cases hp : hasKey s e.payer_id <;>
    by_cases ht : e.targets.isEmpty <;>
      simp [hp, ht, keysOf_distribTargets, keysOf_addPaid]

lemma hasKey_congr {s s2 : SettleMap} (h : keysOf s = keysOf s2) (k : Nat) :
    hasKey s k = hasKey s2 k := by
  rw [Bool.eq_iff_iff, hasKey_iff, hasKey_iff, h]

lemma getOwed_addPaid (s : SettleMap) (k : Nat) (a : Int) (k2 : Nat) :
    getOwed (addPaid s k a) k2 = getOwed s k2 := by
  refine getOwed_map_eq _ (fun p => ?_) s k2
  by_cases h : p.1 = k <;> simp [h]

lemma getPaid_addOwed (s : SettleMap) (k : Nat) (a : Int) (k2 : Nat) :
    getPaid (addOwed s k a) k2 = getPaid s k2 := by
  refine getPaid_map_eq _ (fun p => ?_) s k2
  by_cases h : p.1 = k <;> simp [h]

lemma getOwed_addOwed_self (s : SettleMap) (k : Nat) (a : Int) (hk : hasKey s k = true) :
    getOwed (addOwed s k a) k = getOwed s k + a := by
  induction s with
  | nil => simp [hasKey] at hk
  | cons p s ih =>
    simp only [addOwed, List.map_cons]
    by_cases h : p.1 = k
    · simp [getOwed, h]
    · have hk' : hasKey s k = true := by
        simp only [hasKey, Bool.or_eq_true, beq_iff_eq] at hk
        exact hk.resolve_left h
      simp only [addOwed] at ih
      simp [getOwed, h, ih hk']

lemma getOwed_addOwed_ne (s : SettleMap) (k : Nat) (a : Int) (k2 : Nat) (h2 : k2 ≠ k) :
    getOwed (addOwed s k a) k2 = getOwed s k2 := by
  induction s with
  | nil => rfl
  | cons p s ih =>
    simp only [addOwed, List.map_cons]
    simp only [addOwed] at ih
    by_cases h : p.1 = k
    · simp [getOwed, h, Ne.symm h2, ih]
    · by_cases hp : p.1 = k2 <;> simp [getOwed, h, hp, h2, ih]

lemma getPaid_addPaid_self (s : SettleMap) (k : Nat) (a : Int) (hk : hasKey s k = true) :
    getPaid (addPaid s k a) k = getPaid s k + a := by
  induction s with
  | nil => simp [hasKey] at hk
  | cons p s ih =>
    simp only [addPaid, List.map_cons]
    by_cases h : p.1 = k
    · simp [getPaid, h]
    · have hk' : hasKey s k = true := by
        simp only [hasKey, Bool.or_eq_true, beq_iff_eq] at hk
        exact hk.resolve_left h
      simp only [addPaid] at ih
      simp [getPaid, h, ih hk']

lemma getPaid_addPaid_ne (s : SettleMap) (k : Nat) (a : Int) (k2 : Nat) (h2 : k2 ≠ k) :
    getPaid (addPaid s k a) k2 = getPaid s k2 := by
  induction s with
  | nil => rfl
  | cons p s ih =>
    simp only [addPaid, List.map_cons]
    simp only [addPaid] at ih
    by_cases h : p.1 = k
    · simp [getPaid, h, Ne.symm h2, ih]
    · by_cases hp : p.1 = k2 <;> simp [getPaid, h, hp, h2, ih]

lemma hasKey_addOwed (s : SettleMap) (k : Nat) (a : Int) (k2 : Nat) :
    hasKey (addOwed s k a) k2 = hasKey s k2 :=
  hasKey_congr (keysOf_addOwed s k a) k2

lemma hasKey_addPaid (s : SettleMap) (k : Nat) (a : Int) (k2 : Nat) :
    hasKey (addPaid s k a) k2 = hasKey s k2 :=
  hasKey_congr (keysOf_addPaid s k a) k2

lemma hasKey_false (s : SettleMap) (k : Nat) (h : k ∉ keysOf s) : hasKey s k = false := by
  rcases hb : hasKey s k with _ | _
  · rfl
  · exact absurd ((hasKey_iff s k).mp hb) h

lemma addOwed_no_key (s : SettleMap) (k : Nat) (a : Int) (h : hasKey s k = false) :
    addOwed s k a = s := by
  induction s with
  | nil => rfl
  | cons p s ih =>
    simp only [hasKey, Bool.or_eq_false_iff, beq_eq_false_iff_ne, ne_eq] at h
    simp only [addOwed, List.map_cons, if_neg h.1]
    simp only [addOwed] at ih
    rw [ih h.2]

lemma addPaid_no_key (s : SettleMap) (k : Nat) (a : Int) (h : hasKey s k = false) :
    addPaid s k a = s := by
  induction s with
  | nil => rfl
  | cons p s ih =>
    simp only [hasKey, Bool.or_eq_false_iff, beq_eq_false_iff_ne, ne_eq] at h
    simp only [addPaid, List.map_cons, if_neg h.1]
    simp only [addPaid] at ih
    rw [ih h.2]

lemma getOwed_distrib_notin (split rem : Int) (ts : List Member) (i0 : Nat) (s : SettleMap)
    (k : Nat) (hk : k ∉ ts.map Member.id) :
    getOwed (distribTargets split rem ts i0 s) k = getOwed s k := by
  induction ts generalizing i0 s with
  | nil => rfl
  | cons t ts ih =>
    simp only [List.map_cons, List.mem_cons, not_or] at hk
    simp only [distribTargets]
    rw [ih _ _ hk.2]
    by_cases h : hasKey s t.id
    · simp only [h, if_true]
      exact getOwed_addOwed_ne s t.id _ k hk.1
    · simp [h]

lemma getOwed_distrib (split rem : Int) :
    ∀ (ts : List Member) (i0 : Nat) (s : SettleMap),
      (∀ t ∈ ts, hasKey s t.id = true) →
      (ts.map Member.id).Nodup →
      ∀ (i : Nat) (hi : i < ts.length),
        getOwed (distribTargets split rem ts i0 s) (ts.get ⟨i, hi⟩).id =
          getOwed s (ts.get ⟨i, hi⟩).id
            + (split + (if ((i0 + i : Nat) : Int) < rem then 1 else 0)) := by
  intro ts
  induction ts with
  | nil => intro i0 s _ _ i hi; exact absurd hi (Nat.not_lt_zero i)
  | cons t ts ih =>
    intro i0 s hmem hnd i hi
    have hkt : hasKey s t.id = true := hmem t (List.mem_cons_self t ts)
    simp only [List.map_cons, List.nodup_cons] at hnd
    simp only [distribTargets, hkt, if_true]
    cases i with
    | zero =>
      simp only [List.get]
      rw [getOwed_distrib_notin _ _ _ _ _ _ hnd.1]
      rw [getOwed_addOwed_self s t.id _ hkt]
      simp
    | succ i2 =>
      have hi2 : i2 < ts.length := Nat.lt_of_succ_lt_succ hi
      have hmem2 : ∀ t2 ∈ ts, hasKey (addOwed s t.id (split + (if (i0 : Int) < rem then 1 else 0)) ) t2.id = true := by
        intro t2 ht2
        rw [hasKey_addOwed]
        exact hmem t2 (List.mem_cons_of_mem t ht2)
      have := ih (i0 + 1) _ hmem2 hnd.2 i2 hi2
      simp only [List.get] at this ⊢
      rw [this]
      have hne : (ts.get ⟨i2, hi2⟩).id ≠ t.id := by
        intro he
        exact hnd.1 (he ▸ (List.mem_map.mpr ⟨ts.get ⟨i2, hi2⟩, List.get_mem ts i2 hi2, rfl⟩))
      rw [getOwed_addOwed_ne s t.id _ _ hne]
      have harith : i0 + 1 + i2 = i0 + (i2 + 1) := by omega
      rw [harith]

lemma getOwed_applyExpense (s : SettleMap) (e : Expense)
    (hne : e.targets ≠ [])
    (hmem : ∀ t ∈ e.targets, hasKey s t.id = true)
    (hnd : (e.targets.map Member.id).Nodup)
    (i : Nat) (hi : i < e.targets.length) :
    getOwed (applyExpense s e) (e.targets.get ⟨i, hi⟩).id =
      getOwed s (e.targets.get ⟨i, hi⟩).id
        + (e.amount / (e.targets.length : Int)
            + (if (i : Int) < e.amount % (e.targets.length : Int) then 1 else 0)) := by
  have hE : e.targets.isEmpty = false := by
    cases hts : e.targets with
    | nil => exact absurd hts hne
    | cons a l => rfl
  simp only [applyExpense, hE, if_false, Bool.false_eq_true]
  by_cases hp : hasKey s e.payer_id
  · simp only [hp, if_true]
    have hmem2 : ∀ t ∈ e.targets, hasKey (addPaid s e.payer_id e.amount) t.id = true := by
      intro t ht; rw [hasKey_addPaid]; exact hmem t ht
    have := getOwed_distrib (e.amount / (e.targets.length : Int))
      (e.amount % (e.targets.length : Int)) e.targets 0 _ hmem2 hnd i hi
    simp only [Nat.zero_add] at this
    rw [this, getOwed_addPaid]
  · simp only [hp, if_false, Bool.false_eq_true]
    have := getOwed_distrib (e.amount / (e.targets.length : Int))
      (e.amount % (e.targets.length : Int)) e.targets 0 s hmem hnd i hi
    simpa using this

/-! ### Sums of paid and owed fields -/

lemma sumOwed_map_eq (f : Nat × Entry → Nat × Entry)
    (hf : ∀ p, (f p).2.owed = p.2.owed) :
    ∀ s : SettleMap, sumOwed (s.map f) = sumOwed s := by
  intro s
  induction s with
  | nil => rfl
  | cons p s ih =>
    simp only [sumOwed] at ih
    simp only [List.map_cons, sumOwed, List.sum_cons, hf p, ih]

lemma sumPaid_map_eq (f : Nat × Entry → Nat × Entry)
    (hf : ∀ p, (f p).2.paid = p.2.paid) :
    ∀ s : SettleMap, sumPaid (s.map f) = sumPaid s := by
  intro s
  induction s with
  | nil => rfl
  | cons p s ih =>
    simp only [sumPaid] at ih
    simp only [List.map_cons, sumPaid, List.sum_cons, hf p, ih]

lemma sumOwed_addPaid (s : SettleMap) (k : Nat) (a : Int) :
    sumOwed (addPaid s k a) = sumOwed s := by
  refine sumOwed_map_eq _ (fun p => ?_) s
  by_cases h : p.1 = k <;> simp [h]

lemma sumPaid_addOwed (s : SettleMap) (k : Nat) (a : Int) :
    sumPaid (addOwed s k a) = sumPaid s := by
  refine sumPaid_map_eq _ (fun p => ?_) s
  by_cases h : p.1 = k <;> simp [h]

lemma sumOwed_addOwed (s : SettleMap) (k : Nat) (a : Int)
    (hk : hasKey s k = true) (hnd : (keysOf s).Nodup) :
    sumOwed (addOwed s k a) = sumOwed s + a := by
  induction s with
  | nil => simp [hasKey] at hk
  | cons p s ih =>
    simp only [keysOf, List.map_cons, List.nodup_cons] at hnd
    simp only [addOwed, List.map_cons]
    simp only [addOwed] at ih
    by_cases h : p.1 = k
    · have hnk : hasKey s k = false := hasKey_false s k (h ▸ hnd.1)
      have hrest : (List.map (fun p =>
          if p.1 = k then (p.1, { p.2 with owed := p.2.owed + a }) else p) s) = s := by
        have := addOwed_no_key s k a hnk
        simpa [addOwed] using this
      simp only [sumOwed, List.map_cons, List.sum_cons, if_pos h, hrest]
      omega
    · have hk' : hasKey s k = true := by
        simp only [hasKey, Bool.or_eq_true, beq_iff_eq] at hk
        exact hk.resolve_left h
      simp only [sumOwed, List.map_cons, List.sum_cons, if_neg h] at ih ⊢
      have := ih hk' hnd.2
      simp only [sumOwed] at this
      omega

lemma sumPaid_addPaid (s : SettleMap) (k : Nat) (a : Int)
    (hk : hasKey s k = true) (hnd : (keysOf s).Nodup) :
    sumPaid (addPaid s k a) = sumPaid s + a := by
  induction s with
  | nil => simp [hasKey] at hk
  | cons p s ih =>
    simp only [keysOf, List.map_cons, List.nodup_cons] at hnd
    simp only [addPaid, List.map_cons]
    simp only [addPaid] at ih
    by_cases h : p.1 = k
    · have hnk : hasKey s k = false := hasKey_false s k (h ▸ hnd.1)
      have hrest : (List.map (fun p =>
          if p.1 = k then (p.1, { p.2 with paid := p.2.paid + a }) else p) s) = s := by
        have := addPaid_no_key s k a hnk
        simpa [addPaid] using this
      simp only [sumPaid, List.map_cons, List.sum_cons, if_pos h, hrest]
      omega
    · have hk' : hasKey s k = true := by
        simp only [hasKey, Bool.or_eq_true, beq_iff_eq] at hk
        exact hk.resolve_left h
      simp only [sumPaid, List.map_cons, List.sum_cons, if_neg h] at ih ⊢
      have := ih hk' hnd.2
      simp only [sumPaid] at this
      omega

lemma sumPaid_distribTargets (split rem : Int) (ts : List Member) (i0 : Nat) (s : SettleMap) :
    sumPaid (distribTargets split rem ts i0 s) = sumPaid s := by
  induction ts generalizing i0 s with
  | nil => rfl
  | cons t ts ih =>
    simp only [distribTargets]
    rw [ih]
    by_cases h : hasKey s t.id <;> simp [h, sumPaid_addOwed]

lemma sumOwed_distribTargets (split rem : Int) :
    ∀ (ts : List Member) (i0 : Nat) (s : SettleMap),
      (∀ t ∈ ts, hasKey s t.id = true) → (keysOf s).Nodup →
      sumOwed (distribTargets split rem ts i0 s) =
        sumOwed s + sharesSum split rem i0 ts.length := by
  intro ts
  induction ts with
  | nil => intro i0 s _ _; simp [distribTargets, sharesSum]
  | cons t ts ih =>
    intro i0 s hmem hnd
    have hkt : hasKey s t.id = true := hmem t (List.mem_cons_self t ts)
    simp only [distribTargets, hkt, if_true]
    have hmem2 : ∀ t2 ∈ ts,
        hasKey (addOwed s t.id (split + (if (i0 : Int) < rem then 1 else 0))) t2.id = true := by
      intro t2 ht2; rw [hasKey_addOwed]; exact hmem t2 (List.mem_cons_of_mem t ht2)
    have hnd2 : (keysOf (addOwed s t.id (split + (if (i0 : Int) < rem then 1 else 0)))).Nodup := by
      rw [keysOf_addOwed]; exact hnd
    rw [ih (i0 + 1) _ hmem2 hnd2, sumOwed_addOwed s t.id _ hkt hnd]
    simp only [List.length_cons, sharesSum]
    ring

lemma sharesSum_eval (split rem : Int) :
    ∀ (n : Nat) (i0 : Nat),
      sharesSum split rem i0 n =
        (n : Int) * split + (min rem ((i0 : Int) + n) - min rem (i0 : Int)) := by
  intro n
  induction n with
  | zero => intro i0; simp [sharesSum]
  | succ n ih =>
    intro i0
    have hstep : (if (i0 : Int) < rem then (1 : Int) else 0) =
        min rem ((i0 : Int) + 1) - min rem (i0 : Int) := by
      split_ifs with h <;> omega
    simp only [sharesSum, ih (i0 + 1)]
    push_cast
    rw [hstep]
    have harg : ((i0 : Int) + 1) + (n : Int) = (i0 : Int) + ((n : Int) + 1) := by ring
    rw [harg]
    ring

lemma sumBalances_finalize (s : SettleMap) :
    sumBalances (finalizeBalances s) = sumPaid s - sumOwed s := by
  induction s with
  | nil => rfl
  | cons p s ih =>
    simp only [finalizeBalances, List.map_cons, sumBalances, sumPaid, sumOwed,
      List.sum_cons] at ih ⊢
    omega

lemma sums_applyExpense (s : SettleMap) (e : Expense) (hnd : (keysOf s).Nodup)
    (hp : hasKey s e.payer_id = true) (hne : e.targets ≠ [])
    (hts : ∀ t ∈ e.targets, hasKey s t.id = true) :
    sumPaid (applyExpense s e) = sumPaid s + e.amount ∧
    sumOwed (applyExpense s e) = sumOwed s + e.amount := by
  have hE : e.targets.isEmpty = false := by
    cases hts2 : e.targets with
    | nil => exact absurd hts2 hne
    | cons a l => rfl
  have hn0 : 0 < (e.targets.length : Int) := by
    have : e.targets.length ≠ 0 := by
      intro h; exact hne (List.length_eq_zero.mp h)
    omega
  have hmem2 : ∀ t ∈ e.targets, hasKey (addPaid s e.payer_id e.amount) t.id = true := by
    intro t ht; rw [hasKey_addPaid]; exact hts t ht
  have hnd2 : (keysOf (addPaid s e.payer_id e.amount)).Nodup := by
    rw [keysOf_addPaid]; exact hnd
  have hshare : sharesSum (e.amount / (e.targets.length : Int))
      (e.amount % (e.targets.length : Int)) 0 e.targets.length = e.amount := by
    rw [sharesSum_eval]
    have hr0 : 0 ≤ e.amount % (e.targets.length : Int) :=
      Int.emod_nonneg e.amount (by omega)
    have hrn : e.amount % (e.targets.length : Int) < (e.targets.length : Int) :=
      Int.emod_lt_of_pos e.amount hn0
    have hdiv : (e.targets.length : Int) * (e.amount / (e.targets.length : Int))
        + e.amount % (e.targets.length : Int) = e.amount :=
      Int.ediv_add_emod e.amount (e.targets.length : Int)
    have hmin1 : min (e.amount % (e.targets.length : Int))
        ((0 : Int) + (e.targets.length : Int)) = e.amount % (e.targets.length : Int) := by
      omega
    have hmin2 : min (e.amount % (e.targets.length : Int)) ((0 : Int)) = 0 := by
      omega
    push_cast
    rw [hmin1, hmin2]
    omega
  constructor
  · simp only [applyExpense, hp, if_true, hE, Bool.false_eq_true, if_false]
    rw [sumPaid_distribTargets, sumPaid_addPaid s e.payer_id e.amount hp hnd]
  · simp only [applyExpense, hp, if_true, hE, Bool.false_eq_true, if_false]
    rw [sumOwed_distribTargets _ _ e.targets 0 _ hmem2 hnd2, sumOwed_addPaid, hshare]

/-! ### The initial settlement dict -/

lemma insertMember_zero (s : SettleMap) (m : Member)
    (h : ∀ p ∈ s, p.2.paid = 0 ∧ p.2.owed = 0) :
    ∀ p ∈ insertMember s m, p.2.paid = 0 ∧ p.2.owed = 0 := by
  intro p hp
  simp only [insertMember] at hp
  by_cases hk : hasKey s m.id
  · simp only [hk, if_true, List.mem_map] at hp
    obtain ⟨q, hq, rfl⟩ := hp
    by_cases h2 : q.1 = m.id <;> simp [h2, h q hq]
  · simp only [hk, Bool.false_eq_true, if_false, List.mem_append, List.mem_singleton] at hp
    rcases hp with hp | rfl
    · exact h p hp
    · exact ⟨rfl, rfl⟩

lemma initSettlement_zero (members : List Member) :
    ∀ p ∈ initSettlement members, p.2.paid = 0 ∧ p.2.owed = 0 := by
  suffices h : ∀ (ms : List Member) (s : SettleMap),
      (∀ p ∈ s, p.2.paid = 0 ∧ p.2.owed = 0) →
      ∀ p ∈ List.foldl insertMember s ms, p.2.paid = 0 ∧ p.2.owed = 0 by
    exact h members [] (by simp)
  intro ms
  induction ms with
  | nil => intro s hs; exact hs
  | cons m ms ih => intro s hs; exact ih _ (insertMember_zero s m hs)

lemma keysOf_insertMember_nodup (s : SettleMap) (m : Member)
    (h : (keysOf s).Nodup) : (keysOf (insertMember s m)).Nodup := by
  simp only [insertMember]
  by_cases hk : hasKey s m.id
  · simp only [hk, if_true]
    have : keysOf (s.map fun p => if p.1 = m.id then (p.1, ⟨m.name, 0, 0, 0⟩) else p) = keysOf s := by
      refine keysOf_map_eq _ (fun p => ?_) s
      by_cases h2 : p.1 = m.id <;> simp [h2]
    rw [this]; exact h
  · simp only [hk, Bool.false_eq_true, if_false]
    have hkeys : keysOf (s ++ [(m.id, (⟨m.name, 0, 0, 0⟩ : Entry))]) = keysOf s ++ [m.id] := by
      simp [keysOf]
    rw [hkeys, List.nodup_append]
    refine ⟨h, List.nodup_singleton m.id, ?_⟩
    intro x hx hx2
    simp only [List.mem_singleton] at hx2
    rw [hx2] at hx
    exact absurd ((hasKey_iff s m.id).mpr hx) (by simp [hk])

lemma initSettlement_nodup (members : List Member) :
    (keysOf (initSettlement members)).Nodup := by
  suffices h : ∀ (ms : List Member) (s : SettleMap),
      (keysOf s).Nodup → (keysOf (List.foldl insertMember s ms)).Nodup by
    exact h members [] (by simp [keysOf])
  intro ms
  induction ms with
  | nil => intro s hs; exact hs
  | cons m ms ih => intro s hs; exact ih _ (keysOf_insertMember_nodup s m hs)

lemma mem_keysOf_insertMember (s : SettleMap) (m : Member) (k : Nat) :
    k ∈ keysOf (insertMember s m) ↔ k ∈ keysOf s ∨ k = m.id := by
  simp only [insertMember]
  by_cases hk : hasKey s m.id
  · have heq : keysOf (s.map fun p => if p.1 = m.id then (p.1, ⟨m.name, 0, 0, 0⟩) else p) = keysOf s := by
      refine keysOf_map_eq _ (fun p => ?_) s
      by_cases h2 : p.1 = m.id <;> simp [h2]
    simp only [hk, if_true, heq]
    constructor
    · exact Or.inl
    · rintro (h2 | h2)
      · exact h2
      · rw [h2]
        exact (hasKey_iff s m.id).mp hk
  · simp [hk, keysOf]

lemma mem_keysOf_initSettlement (members : List Member) (k : Nat) :
    k ∈ keysOf (initSettlement members) ↔ k ∈ members.map Member.id := by
  suffices h : ∀ (ms : List Member) (s : SettleMap),
      (k ∈ keysOf (List.foldl insertMember s ms) ↔ k ∈ keysOf s ∨ k ∈ ms.map Member.id) by
    have := h members []
    simpa [keysOf] using this
  intro ms
  induction ms with
  | nil => intro s; simp
  | cons m ms ih =>
    intro s
    simp only [List.foldl_cons, ih (insertMember s m), mem_keysOf_insertMember,
      List.map_cons, List.mem_cons]
    tauto

lemma sumPaid_initSettlement (members : List Member) : sumPaid (initSettlement members) = 0 := by
  apply List.sum_eq_zero
  intro x hx
  simp only [List.mem_map] at hx
  obtain ⟨p, hp, rfl⟩ := hx
  exact (initSettlement_zero members p hp).1

lemma sumOwed_initSettlement (members : List Member) : sumOwed (initSettlement members) = 0 := by
  apply List.sum_eq_zero
  intro x hx
  simp only [List.mem_map] at hx
  obtain ⟨p, hp, rfl⟩ := hx
  exact (initSettlement_zero members p hp).2

/-! ### Folding the allocator over all expenses -/

lemma sums_foldExpenses :
    ∀ (expenses : List Expense) (s : SettleMap), (keysOf s).Nodup →
      (∀ e ∈ expenses, e.payer_id ∈ keysOf s ∧ e.targets ≠ [] ∧
        ∀ t ∈ e.targets, t.id ∈ keysOf s) →
      sumPaid (List.foldl applyExpense s expenses) =
          sumPaid s + (expenses.map Expense.amount).sum ∧
      sumOwed (List.foldl applyExpense s expenses) =
          sumOwed s + (expenses.map Expense.amount).sum := by
  intro expenses
  induction expenses with
  | nil => intro s _ _; simp
  | cons e es ih =>
    intro s hnd hval
    obtain ⟨hp, hne, hts⟩ := hval e (List.mem_cons_self e es)
    have hstep := sums_applyExpense s e hnd ((hasKey_iff s e.payer_id).mpr hp) hne
      (fun t ht => (hasKey_iff s t.id).mpr (hts t ht))
    have hkeys : keysOf (applyExpense s e) = keysOf s := keysOf_applyExpense s e
    have hval2 : ∀ e2 ∈ es, e2.payer_id ∈ keysOf (applyExpense s e) ∧ e2.targets ≠ [] ∧
        ∀ t ∈ e2.targets, t.id ∈ keysOf (applyExpense s e) := by
      intro e2 he2
      rw [hkeys]
      exact hval e2 (List.mem_cons_of_mem e he2)
    have := ih (applyExpense s e) (by rw [hkeys]; exact hnd) hval2
    simp only [List.foldl_cons, List.map_cons, List.sum_cons]
    omega

lemma count_range_lt (n : Nat) (r : Int) :
    ((List.range n).filter fun i : Nat => decide ((i : Int) < r)).length = min r.toNat n := by
  induction n with
  | zero => simp
  | succ n ih =>
    rw [List.range_succ, List.filter_append, List.length_append, ih]
    by_cases h : (n : Int) < r
    · simp only [List.filter_cons, List.filter_nil, decide_eq_true h, if_true]
      simp only [List.length_cons, List.length_nil]
      omega
    · simp only [List.filter_cons, List.filter_nil]
      rw [decide_eq_false h]
      simp only [Bool.false_eq_true, if_false, List.length_nil]
      omega

/-- Claim C1, counterexample: for the one-member group `[A]` with a single
expense of amount 10 paid by `A` with an empty target list, the amount lands
on the paid side only, so the balances sum to 10, not 0.  The claim asserts
the zero-sum invariant with no precondition on targets, and fails here. -/
theorem c1_counterexample :
    sumBalances (allocate [⟨1, "A"⟩] [⟨"solo", 10, 1, []⟩]) ≠ 0 := by decide

/-- Claim C1 (amended): the balances of a group sum to exactly 0 provided
every expense's payer is a current group member, every expense has a
non-empty target list, and every target is a current group member. -/
theorem c1_zero_sum_amended (members : List Member) (expenses : List Expense)
    (hval : ∀ e ∈ expenses, e.payer_id ∈ members.map Member.id ∧ e.targets ≠ [] ∧
      ∀ t ∈ e.targets, t.id ∈ members.map Member.id) :
    sumBalances (allocate members expenses) = 0 := by
  have hnd := initSettlement_nodup members
  have hval2 : ∀ e ∈ expenses, e.payer_id ∈ keysOf (initSettlement members) ∧
      e.targets ≠ [] ∧ ∀ t ∈ e.targets, t.id ∈ keysOf (initSettlement members) := by
    intro e he
    obtain ⟨h1, h2, h3⟩ := hval e he
    exact ⟨(mem_keysOf_initSettlement members _).mpr h1, h2,
      fun t ht => (mem_keysOf_initSettlement members _).mpr (h3 t ht)⟩
  obtain ⟨hP, hO⟩ := sums_foldExpenses expenses _ hnd hval2
  simp only [allocate]
  rw [sumBalances_finalize, hP, hO, sumPaid_initSettlement, sumOwed_initSettlement]
  ring

/-- Witness for C1 (amended), at the spec's worked example: three members,
one expense of 100 paid by `A` and split over all three. -/
theorem c1_witness :
    sumBalances (allocate [⟨1, "A"⟩, ⟨2, "B"⟩, ⟨3, "C"⟩]
      [⟨"lunch", 100, 1, [⟨1, "A"⟩, ⟨2, "B"⟩, ⟨3, "C"⟩]⟩]) = 0 :=
  c1_zero_sum_amended _ _ (by decide)

/-- Claim C2: for an expense of amount `A` over `N` targets that are all
current group members (distinct database rows), target `i` in attachment
order accrues `A / N + 1` when `i < A % N` and `A / N` otherwise, and
exactly `A % N` of the `N` positions receive the extra unit. -/
theorem c2_remainder_fairness (s : SettleMap) (e : Expense)
    (hne : e.targets ≠ [])
    (hmem : ∀ t ∈ e.targets, hasKey s t.id = true)
    (hnd : (e.targets.map Member.id).Nodup) :
    (∀ (i : Nat) (hi : i < e.targets.length),
      getOwed (applyExpense s e) (e.targets.get ⟨i, hi⟩).id =
        getOwed s (e.targets.get ⟨i, hi⟩).id
          + (e.amount / (e.targets.length : Int)
             + (if (i : Int) < e.amount % (e.targets.length : Int) then 1 else 0))) ∧
    ((List.range e.targets.length).filter
        fun i : Nat => decide ((i : Int) < e.amount % (e.targets.length : Int))).length
      = (e.amount % (e.targets.length : Int)).toNat := by
  constructor
  · intro i hi
    exact getOwed_applyExpense s e hne hmem hnd i hi
  · have hn0 : 0 < (e.targets.length : Int) := by
      have : e.targets.length ≠ 0 := by
        intro h; exact hne (List.length_eq_zero.mp h)
      omega
    have h0 := Int.emod_nonneg e.amount (by omega : (e.targets.length : Int) ≠ 0)
    have hlt := Int.emod_lt_of_pos e.amount hn0
    rw [count_range_lt]
    omega

/-- Witness for C2: amount 10 over the three targets `X, Y, Z`, read at the
first target, which receives `10 / 3 + 1 = 4` owed. -/
theorem c2_witness :
    getOwed (applyExpense (initSettlement [⟨1, "X"⟩, ⟨2, "Y"⟩, ⟨3, "Z"⟩])
        ⟨"snack", 10, 1, [⟨1, "X"⟩, ⟨2, "Y"⟩, ⟨3, "Z"⟩]⟩)
      ((([⟨1, "X"⟩, ⟨2, "Y"⟩, ⟨3, "Z"⟩] : List Member).get ⟨0, by decide⟩).id) =
    getOwed (initSettlement [⟨1, "X"⟩, ⟨2, "Y"⟩, ⟨3, "Z"⟩])
      ((([⟨1, "X"⟩, ⟨2, "Y"⟩, ⟨3, "Z"⟩] : List Member).get ⟨0, by decide⟩).id)
      + ((10 : Int) / ((3 : Nat) : Int)
         + (if ((0 : Nat) : Int) < (10 : Int) % ((3 : Nat) : Int) then 1 else 0)) :=
  (c2_remainder_fairness (initSettlement [⟨1, "X"⟩, ⟨2, "Y"⟩, ⟨3, "Z"⟩])
    ⟨"snack", 10, 1, [⟨1, "X"⟩, ⟨2, "Y"⟩, ⟨3, "Z"⟩]⟩
    (by decide) (by decide) (by decide)).1 0 (by decide)

/-- Claim C6: the engine is a pure function of the members/expenses
snapshot, so two runs on identical input give identical output, including
the per-member figures and the transaction order. -/
theorem c6_two_run_determinism (m1 m2 : List Member) (e1 e2 : List Expense)
    (hm : m1 = m2) (he : e1 = e2) :
    groupSettlement m1 e1 = groupSettlement m2 e2 := by
  rw [hm, he]

/-- Witness for C6 at a concrete snapshot. -/
theorem c6_witness :
    groupSettlement [⟨1, "A"⟩, ⟨2, "B"⟩] [⟨"taxi", 9, 1, [⟨1, "A"⟩, ⟨2, "B"⟩]⟩] =
    groupSettlement [⟨1, "A"⟩, ⟨2, "B"⟩] [⟨"taxi", 9, 1, [⟨1, "A"⟩, ⟨2, "B"⟩]⟩] :=
  c6_two_run_determinism _ _ _ _ rfl rfl

/-- Claim C7: an expense with an empty target list only adds its amount to
the payer's paid figure; every owed figure is unchanged, every other
member's paid figure is unchanged, and no division is reached (the split
branch is guarded by the emptiness test), so allocation succeeds. -/
theorem c7_no_targets (s : SettleMap) (e : Expense) (h : e.targets = []) :
    (∀ k, getOwed (applyExpense s e) k = getOwed s k) ∧
    (hasKey s e.payer_id = true →
      getPaid (applyExpense s e) e.payer_id = getPaid s e.payer_id + e.amount) ∧
    (∀ k, k ≠ e.payer_id → getPaid (applyExpense s e) k = getPaid s k) := by
  have hE : e.targets.isEmpty = true := by rw [h]; rfl
  refine ⟨?_, ?_, ?_⟩ <;> simp only [applyExpense, hE, if_true]
  · intro k
    by_cases hp : hasKey s e.payer_id <;> simp [hp, getOwed_addPaid]
  · intro hp
    simp [hp, getPaid_addPaid_self s _ _ hp]
  · intro k hk
    by_cases hp : hasKey s e.payer_id <;> simp [hp, getPaid_addPaid_ne s _ _ _ hk]

/-- Witness for C7: a 7-yen expense with no targets in a two-member group
leaves member 2's owed unchanged. -/
theorem c7_witness :
    getOwed (applyExpense (initSettlement [⟨1, "A"⟩, ⟨2, "B"⟩]) ⟨"fee", 7, 1, []⟩) 2 =
    getOwed (initSettlement [⟨1, "A"⟩, ⟨2, "B"⟩]) 2 :=
  (c7_no_targets (initSettlement [⟨1, "A"⟩, ⟨2, "B"⟩]) ⟨"fee", 7, 1, []⟩ rfl).1 2

/-- Claim C10: in `app.py`, `per_person = total / len(members)` divides by
the number of distinct payers, so with no recorded payments the division by
zero makes the settlement route fail (modelled as `none`) instead of
returning an empty plan. -/
theorem c10_empty_division_fails : appSettlement [] = none := rfl

/-! ### Indexing helpers and the stable sorts -/

lemma getD_eq_get (l : List Bal) (i : Nat) (h : i < l.length) : l.getD i dflt = l[i] :=
  List.getD_eq_getElem l dflt h

lemma getD_set_self (l : List Bal) (i : Nat) (a : Bal) (h : i < l.length) :
    (l.set i a).getD i dflt = a := by
  rw [List.getD_eq_getElem _ _ (by simpa using h)]
  exact List.getElem_set_self (by simpa using h)

lemma getD_set_ne (l : List Bal) (i k : Nat) (a : Bal) (h : i ≠ k) :
    (l.set i a).getD k dflt = l.getD k dflt := by
  simp only [List.getD_eq_getElem?_getD, List.getElem?_set, if_neg h]

lemma getD_mem (l : List Bal) (i : Nat) (h : i < l.length) : l.getD i dflt ∈ l := by
  rw [getD_eq_get l i h]
  exact List.getElem_mem h

lemma perm_insertAsc (a : Bal) (l : List Bal) : (insertAsc a l).Perm (a :: l) := by
  induction l with
  | nil => exact List.Perm.refl _
  | cons b l ih =>
    simp only [insertAsc]
    by_cases h : a.2 ≤ b.2
    · rw [if_pos h]
    · rw [if_neg h]
      exact (ih.cons b).trans (List.Perm.swap a b l)

lemma perm_sortAsc (l : List Bal) : (sortAsc l).Perm l := by
  induction l with
  | nil => exact List.Perm.refl _
  | cons a l ih => exact (perm_insertAsc a (sortAsc l)).trans (ih.cons a)

lemma perm_insertDesc (a : Bal) (l : List Bal) : (insertDesc a l).Perm (a :: l) := by
  induction l with
  | nil => exact List.Perm.refl _
  | cons b l ih =>
    simp only [insertDesc]
    by_cases h : b.2 ≤ a.2
    · rw [if_pos h]
    · rw [if_neg h]
      exact (ih.cons b).trans (List.Perm.swap a b l)

lemma perm_sortDesc (l : List Bal) : (sortDesc l).Perm l := by
  induction l with
  | nil => exact List.Perm.refl _
  | cons a l ih => exact (perm_insertDesc a (sortDesc l)).trans (ih.cons a)

/-! ### The sign invariant of the matcher loop -/

/-- Loop invariant of the two-pointer sweep: both cursors are within
bounds, every entry strictly before a cursor has been fully settled to 0,
and every entry from the cursor on still has the sign of its partition
(debtors negative, creditors positive). -/
structure SInv (st : MState) : Prop where
  hi : st.i ≤ st.debtors.length
  hj : st.j ≤ st.creditors.length
  dzero : ∀ k, k < st.i → (st.debtors.getD k dflt).2 = 0
  dneg : ∀ k, st.i ≤ k → k < st.debtors.length → (st.debtors.getD k dflt).2 < 0
  czero : ∀ k, k < st.j → (st.creditors.getD k dflt).2 = 0
  cpos : ∀ k, st.j ≤ k → k < st.creditors.length → 0 < (st.creditors.getD k dflt).2

lemma txAmount_pos (st : MState) (hs : SInv st) (hc : loopGuard st) : 0 < txAmount st := by
  have hd : (curD st).2 < 0 := hs.dneg st.i (Nat.le_refl _) hc.1
  have hcp : 0 < (curC st).2 := hs.cpos st.j (Nat.le_refl _) hc.2
  have : 0 < |(curD st).2| := abs_pos.mpr (ne_of_lt hd)
  exact lt_min this hcp

lemma stepIter_txns (st : MState) (hA : 0 < txAmount st) :
    (stepIter st).txns = st.txns ++ [⟨(curD st).1, (curC st).1, txAmount st⟩] := by
  simp only [stepIter, advanceCursors, pay, if_pos hA]

lemma stepIter_debtors (st : MState) (hA : 0 < txAmount st) :
    (stepIter st).debtors = st.debtors.set st.i ((curD st).1, (curD st).2 + txAmount st) := by
  simp only [stepIter, advanceCursors, pay, if_pos hA]

lemma stepIter_creditors (st : MState) (hA : 0 < txAmount st) :
    (stepIter st).creditors = st.creditors.set st.j ((curC st).1, (curC st).2 - txAmount st) := by
  simp only [stepIter, advanceCursors, pay, if_pos hA]

lemma pay_i (st : MState) : (pay st).i = st.i := by
  simp only [pay]
  split <;> rfl

lemma pay_j (st : MState) : (pay st).j = st.j := by
  simp only [pay]
  split <;> rfl

lemma stepIter_i (st : MState) (hA : 0 < txAmount st) (hi : st.i < st.debtors.length) :
    (stepIter st).i = if (curD st).2 + txAmount st = 0 then st.i + 1 else st.i := by
  have hcur : curD (pay st) = ((curD st).1, (curD st).2 + txAmount st) := by
    simp only [pay, if_pos hA, curD]
    exact getD_set_self _ _ _ hi
  simp only [stepIter, advanceCursors, hcur, abs_eq_zero, pay_i]

lemma stepIter_j (st : MState) (hA : 0 < txAmount st) (hj : st.j < st.creditors.length) :
    (stepIter st).j = if (curC st).2 - txAmount st = 0 then st.j + 1 else st.j := by
  have hcur : curC (pay st) = ((curC st).1, (curC st).2 - txAmount st) := by
    simp only [pay, if_pos hA, curC]
    exact getD_set_self _ _ _ hj
  simp only [stepIter, advanceCursors, hcur, abs_eq_zero, pay_j]

lemma step_signs (st : MState) (hs : SInv st) (hc : loopGuard st) :
    (curD st).2 + txAmount st ≤ 0 ∧ 0 ≤ (curC st).2 - txAmount st ∧
    ((curD st).2 + txAmount st = 0 ∨ (curC st).2 - txAmount st = 0) := by
  have hd : (curD st).2 < 0 := hs.dneg st.i (Nat.le_refl _) hc.1
  have habs : |(curD st).2| = -(curD st).2 := abs_of_neg hd
  have h1 : txAmount st ≤ |(curD st).2| := min_le_left _ _
  have h2 : txAmount st ≤ (curC st).2 := min_le_right _ _
  rw [habs] at h1
  refine ⟨by omega, by omega, ?_⟩
  rcases min_choice |(curD st).2| (curC st).2 with h | h
  · left
    have hA : txAmount st = -(curD st).2 := by rw [txAmount, h, habs]
    omega
  · right
    have hA : txAmount st = (curC st).2 := by rw [txAmount, h]
    omega

lemma step_main (st : MState) (hs : SInv st) (hc : loopGuard st) :
    SInv (stepIter st) ∧
    (stepIter st).debtors.length = st.debtors.length ∧
    (stepIter st).creditors.length = st.creditors.length ∧
    st.i ≤ (stepIter st).i ∧ st.j ≤ (stepIter st).j ∧
    (stepIter st).i ≤ st.i + 1 ∧ (stepIter st).j ≤ st.j + 1 ∧
    st.i + st.j + 1 ≤ (stepIter st).i + (stepIter st).j ∧
    (stepIter st).txns.length = st.txns.length + 1 := by
  obtain ⟨hci, hcj⟩ := hc
  have hA := txAmount_pos st hs ⟨hci, hcj⟩
  obtain ⟨hdle, hcge, hchoice⟩ := step_signs st hs ⟨hci, hcj⟩
  have hDeq := stepIter_debtors st hA
  have hCeq := stepIter_creditors st hA
  have hIeq := stepIter_i st hA hci
  have hJeq := stepIter_j st hA hcj
  have hTeq := stepIter_txns st hA
  have hlenD : (stepIter st).debtors.length = st.debtors.length := by
    rw [hDeq, List.length_set]
  have hlenC : (stepIter st).creditors.length = st.creditors.length := by
    rw [hCeq, List.length_set]
  have hgetDi : (stepIter st).debtors.getD st.i dflt =
      ((curD st).1, (curD st).2 + txAmount st) := by
    rw [hDeq]; exact getD_set_self _ _ _ hci
  have hgetDk : ∀ k, k ≠ st.i →
      (stepIter st).debtors.getD k dflt = st.debtors.getD k dflt := by
    intro k hk
    rw [hDeq]; exact getD_set_ne _ _ _ _ (fun h => hk h.symm)
  have hgetCj : (stepIter st).creditors.getD st.j dflt =
      ((curC st).1, (curC st).2 - txAmount st) := by
    rw [hCeq]; exact getD_set_self _ _ _ hcj
  have hgetCk : ∀ k, k ≠ st.j →
      (stepIter st).creditors.getD k dflt = st.creditors.getD k dflt := by
    intro k hk
    rw [hCeq]; exact getD_set_ne _ _ _ _ (fun h => hk h.symm)
  refine ⟨⟨?_, ?_, ?_, ?_, ?_, ?_⟩, hlenD, hlenC, ?_, ?_, ?_, ?_, ?_, ?_⟩
  · rw [hIeq, hlenD]
    split_ifs <;> omega
  · rw [hJeq, hlenC]
    split_ifs <;> omega
  · intro k hk
    rw [hIeq] at hk
    by_cases hki : k = st.i
    · subst hki
      rw [hgetDi]
      show (curD st).2 + txAmount st = 0
      split_ifs at hk with hcond
      · exact hcond
      · exact absurd hk (Nat.lt_irrefl _)
    · rw [hgetDk k hki]
      apply hs.dzero
      split_ifs at hk <;> omega
  · intro k hk hklen
    rw [hlenD] at hklen
    rw [hIeq] at hk
    by_cases hki : k = st.i
    · subst hki
      rw [hgetDi]
      show (curD st).2 + txAmount st < 0
      split_ifs at hk with hcond
      · omega
      · omega
    · rw [hgetDk k hki]
      refine hs.dneg k ?_ hklen
      split_ifs at hk <;> omega
  · intro k hk
    rw [hJeq] at hk
    by_cases hkj : k = st.j
    · subst hkj
      rw [hgetCj]
      show (curC st).2 - txAmount st = 0
      split_ifs at hk with hcond
      · exact hcond
      · exact absurd hk (Nat.lt_irrefl _)
    · rw [hgetCk k hkj]
      apply hs.czero
      split_ifs at hk <;> omega
  · intro k hk hklen
    rw [hlenC] at hklen
    rw [hJeq] at hk
    by_cases hkj : k = st.j
    · subst hkj
      rw [hgetCj]
      show 0 < (curC st).2 - txAmount st
      split_ifs at hk with hcond
      · omega
      · omega
    · rw [hgetCk k hkj]
      refine hs.cpos k ?_ hklen
      split_ifs at hk <;> omega
  · rw [hIeq]
    split_ifs <;> omega
  · rw [hJeq]
    split_ifs <;> omega
  · rw [hIeq]
    split_ifs <;> omega
  · rw [hJeq]
    split_ifs <;> omega
  · rw [hIeq, hJeq]
    rcases hchoice with h | h <;> split_ifs <;> omega
  · rw [hTeq, List.length_append, List.length_singleton]

lemma settleLoop_SInv : ∀ (fuel : Nat) (st : MState), SInv st → SInv (settleLoop fuel st) := by
  intro fuel
  induction fuel with
  | zero => intro st hs; exact hs
  | succ n ih =>
    intro st hs
    by_cases hg : loopGuard st
    · simp only [settleLoop, if_pos hg]
      exact ih _ (step_main st hs hg).1
    · simp only [settleLoop, if_neg hg]
      exact hs

lemma settleLoop_lengths : ∀ (fuel : Nat) (st : MState), SInv st →
    (settleLoop fuel st).debtors.length = st.debtors.length ∧
    (settleLoop fuel st).creditors.length = st.creditors.length := by
  intro fuel
  induction fuel with
  | zero => intro st _; exact ⟨rfl, rfl⟩
  | succ n ih =>
    intro st hs
    by_cases hg : loopGuard st
    · simp only [settleLoop, if_pos hg]
      obtain ⟨_, hlD, hlC, _⟩ := step_main st hs hg
      obtain ⟨h1, h2⟩ := ih _ (step_main st hs hg).1
      exact ⟨h1.trans hlD, h2.trans hlC⟩
    · simp [settleLoop, hg]

lemma settleLoop_terminates : ∀ (fuel : Nat) (st : MState), SInv st →
    st.debtors.length - st.i + (st.creditors.length - st.j) ≤ fuel →
    ¬ loopGuard (settleLoop fuel st) := by
  intro fuel
  induction fuel with
  | zero =>
    intro st _ hm hg
    obtain ⟨h1, h2⟩ := hg
    simp only [settleLoop] at h1 h2
    omega
  | succ n ih =>
    intro st hs hm
    by_cases hg : loopGuard st
    · simp only [settleLoop, if_pos hg]
      obtain ⟨hs2, hlD, hlC, hii, hjj, hi1, hj1, hsum, _⟩ := step_main st hs hg
      refine ih _ hs2 ?_
      obtain ⟨h1, h2⟩ := hg
      rw [hlD, hlC]
      omega
    · simp only [settleLoop, if_neg hg]
      exact hg

lemma settleLoop_txn_bound : ∀ (fuel : Nat) (st : MState), SInv st →
    (settleLoop fuel st).txns.length ≤
      st.txns.length + (st.debtors.length - st.i + (st.creditors.length - st.j) - 1) := by
  intro fuel
  induction fuel with
  | zero => intro st _; exact Nat.le_add_right _ _
  | succ n ih =>
    intro st hs
    by_cases hg : loopGuard st
    · simp only [settleLoop, if_pos hg]
      obtain ⟨hs2, hlD, hlC, hii, hjj, hi1, hj1, hsum, htx⟩ := step_main st hs hg
      have hb := ih _ hs2
      rw [hlD, hlC, htx] at hb
      obtain ⟨h1, h2⟩ := hg
      omega
    · simp only [settleLoop, if_neg hg]
      exact Nat.le_add_right _ _

lemma SInv_settleInit (bal : List Bal) : SInv (settleInit bal) := by
  refine ⟨Nat.zero_le _, Nat.zero_le _, ?_, ?_, ?_, ?_⟩
  · intro k hk
    exact absurd hk (Nat.not_lt_zero k)
  · intro k _ hk
    have hm := getD_mem _ k hk
    have hm2 := (perm_sortAsc (bal.filter fun p => p.2 < 0)).mem_iff.mp hm
    have := (List.mem_filter.mp hm2).2
    simpa using this
  · intro k hk
    exact absurd hk (Nat.not_lt_zero k)
  · intro k _ hk
    have hm := getD_mem _ k hk
    have hm2 := (perm_sortDesc (bal.filter fun p => 0 < p.2)).mem_iff.mp hm
    have := (List.mem_filter.mp hm2).2
    simpa using this

/-- Claim C9: for every input balances list, zero-sum or not, the matcher's
`while` loop reaches its exit condition within `len(debtors) + len(creditors)`
iterations — at the top of each iteration the current debtor is strictly
negative and the current creditor strictly positive, so the transferred
amount is strictly positive and at least one cursor advances. -/
theorem c9_loop_terminates (bal : List Bal) : ¬ loopGuard (settleRun bal) := by
  have hs := SInv_settleInit bal
  refine settleLoop_terminates _ _ hs ?_
  have h0i : (settleInit bal).i = 0 := rfl
  have h0j : (settleInit bal).j = 0 := rfl
  rw [h0i, h0j]
  omega

/-- Claim C5: the matcher emits at most `max 0 (D + C - 1)` transactions,
where `D` is the number of members with negative balance and `C` the number
with positive balance. -/
theorem c5_txn_bound (bal : List Bal) :
    (settle bal).length ≤
      max 0 ((bal.filter fun p => p.2 < 0).length
        + (bal.filter fun p => 0 < p.2).length - 1) := by
  have hs := SInv_settleInit bal
  have hb := settleLoop_txn_bound
    ((settleInit bal).debtors.length + (settleInit bal).creditors.length) _ hs
  have h0i : (settleInit bal).i = 0 := rfl
  have h0j : (settleInit bal).j = 0 := rfl
  have h0t : (settleInit bal).txns.length = 0 := rfl
  have hD : (settleInit bal).debtors.length = (bal.filter fun p => p.2 < 0).length :=
    (perm_sortAsc (bal.filter fun p => p.2 < 0)).length_eq
  have hC : (settleInit bal).creditors.length = (bal.filter fun p => 0 < p.2).length :=
    (perm_sortDesc (bal.filter fun p => 0 < p.2)).length_eq
  rw [h0i, h0j, h0t] at hb
  have hsettle : (settle bal).length =
      (settleLoop ((settleInit bal).debtors.length + (settleInit bal).creditors.length)
        (settleInit bal)).txns.length := rfl
  omega

/-! ### Net effect of a transaction list -/

lemma net_cons (t : Txn) (ts : List Txn) (x : String) :
    net (t :: ts) x =
      ((if t.src = x then t.amount else 0) - (if t.dst = x then t.amount else 0)) + net ts x := by
  simp [net]

lemma net_append_one (ts : List Txn) (t : Txn) (x : String) :
    net (ts ++ [t]) x =
      net ts x + ((if t.src = x then t.amount else 0) - (if t.dst = x then t.amount else 0)) := by
  simp [net, List.map_append, List.sum_append]

lemma net_zero (ts : List Txn) (x : String) (h : ∀ t ∈ ts, t.src ≠ x ∧ t.dst ≠ x) :
    net ts x = 0 := by
  induction ts with
  | nil => rfl
  | cons t ts ih =>
    obtain ⟨h1, h2⟩ := h t (List.mem_cons_self t ts)
    rw [net_cons, if_neg h1, if_neg h2, ih (fun t2 ht2 => h t2 (List.mem_cons_of_mem t ht2))]
    omega

lemma applyTxns_eq_map (ts : List Txn) : ∀ bal : List Bal,
    applyTxns bal ts = bal.map fun p => (p.1, p.2 + net ts p.1) := by
  induction ts with
  | nil =>
    intro bal
    simp [applyTxns, net]
  | cons t ts ih =>
    intro bal
    have h1 : applyTxns bal (t :: ts) = applyTxns (applyTx bal t) ts := rfl
    rw [h1, ih, applyTx, List.map_map]
    refine List.map_congr_left ?_
    intro p hp
    simp only [Function.comp_apply]
    rw [net_cons]
    refine congrArg (fun v => (p.1, v)) ?_
    omega

lemma sumSnd_map_add (bal : List Bal) (f : String → Int) :
    sumSnd (bal.map fun p => (p.1, p.2 + f p.1)) =
      sumSnd bal + (bal.map fun p => f p.1).sum := by
  induction bal with
  | nil => rfl
  | cons p bal ih =>
    simp only [List.map_cons, sumSnd, List.sum_cons] at ih ⊢
    omega

lemma sum_if_key (bal : List Bal) (y : String) (a : Int) (hn : (bal.map Prod.fst).Nodup) :
    (bal.map fun p => if y = p.1 then a else 0).sum =
      if y ∈ bal.map Prod.fst then a else 0 := by
  induction bal with
  | nil => simp
  | cons p bal ih =>
    simp only [List.map_cons, List.nodup_cons] at hn
    by_cases h : y = p.1
    · have hy : y ∉ bal.map Prod.fst := h ▸ hn.1
      have hz : (bal.map fun p => if y = p.1 then a else 0).sum = 0 := by
        rw [ih hn.2, if_neg hy]
      simp only [List.map_cons, List.sum_cons, if_pos h, hz, List.mem_cons]
      rw [if_pos (Or.inl h)]
      omega
    · simp only [List.map_cons, List.sum_cons, if_neg h, ih hn.2, List.mem_cons]
      by_cases hy : y ∈ bal.map Prod.fst
      · rw [if_pos hy, if_pos (Or.inr hy)]
        omega
      · rw [if_neg hy, if_neg (by rintro (hc | hc); exact h hc; exact hy hc)]
        omega

lemma sum_map_sub (bal : List Bal) (f g : Bal → Int) :
    (bal.map fun p => f p - g p).sum = (bal.map f).sum - (bal.map g).sum := by
  induction bal with
  | nil => rfl
  | cons p bal ih =>
    simp only [List.map_cons, List.sum_cons, ih]
    omega

lemma sum_map_add2 (bal : List Bal) (f g : Bal → Int) :
    (bal.map fun p => f p + g p).sum = (bal.map f).sum + (bal.map g).sum := by
  induction bal with
  | nil => rfl
  | cons p bal ih =>
    simp only [List.map_cons, List.sum_cons, ih]
    omega

lemma sum_net (bal : List Bal) (hn : (bal.map Prod.fst).Nodup) :
    ∀ ts : List Txn,
      (∀ t ∈ ts, t.src ∈ bal.map Prod.fst ∧ t.dst ∈ bal.map Prod.fst) →
      (bal.map fun p => net ts p.1).sum = 0 := by
  intro ts
  induction ts with
  | nil => intro _; simp [net]
  | cons t ts ih =>
    intro hmem
    obtain ⟨hsrc, hdst⟩ := hmem t (List.mem_cons_self t ts)
    have hpt : (bal.map fun p => net (t :: ts) p.1) =
        bal.map fun p =>
          ((if t.src = p.1 then t.amount else 0) - (if t.dst = p.1 then t.amount else 0))
            + net ts p.1 := by
      refine List.map_congr_left ?_
      intro p hp
      rw [net_cons]
    rw [hpt, sum_map_add2, sum_map_sub, sum_if_key bal t.src t.amount hn,
      sum_if_key bal t.dst t.amount hn, if_pos hsrc, if_pos hdst,
      ih (fun t2 ht2 => hmem t2 (List.mem_cons_of_mem t ht2))]
    omega

lemma key_inj (l : List Bal) (hn : (l.map Prod.fst).Nodup) :
    ∀ p ∈ l, ∀ q ∈ l, p.1 = q.1 → p = q := by
  induction l with
  | nil => intro p hp; exact absurd hp (List.not_mem_nil p)
  | cons r l ih =>
    simp only [List.map_cons, List.nodup_cons] at hn
    intro p hp q hq he
    rcases List.mem_cons.mp hp with h1 | h1 <;> rcases List.mem_cons.mp hq with h2 | h2
    · rw [h1, h2]
    · exfalso
      apply hn.1
      have hq2 : q.1 ∈ l.map Prod.fst := List.mem_map_of_mem Prod.fst h2
      rw [← he, h1] at hq2
      exact hq2
    · exfalso
      apply hn.1
      have hp2 : p.1 ∈ l.map Prod.fst := List.mem_map_of_mem Prod.fst h1
      rw [he, h2] at hp2
      exact hp2
    · exact ih hn.2 p h1 q h2 he

lemma forall_mem_of_forall_getD (l : List Bal) (P : Bal → Prop)
    (h : ∀ k, k < l.length → P (l.getD k dflt)) : ∀ p ∈ l, P p := by
  intro p hp
  obtain ⟨n, hn, he⟩ := List.mem_iff_getElem.mp hp
  have := h n hn
  rw [getD_eq_get _ _ hn, he] at this
  exact this

lemma sumSnd_zero_of_mem (l : List Bal) (h : ∀ p ∈ l, p.2 = 0) : sumSnd l = 0 := by
  refine List.sum_eq_zero ?_
  intro x hx
  obtain ⟨p, hp, rfl⟩ := List.mem_map.mp hx
  exact h p hp

lemma entries_zero_of_nonneg (l : List Bal) (h : ∀ p ∈ l, 0 ≤ p.2)
    (hsum : sumSnd l = 0) : ∀ p ∈ l, p.2 = 0 := by
  induction l with
  | nil => intro p hp; exact absurd hp (List.not_mem_nil p)
  | cons r l ih =>
    have hr : 0 ≤ r.2 := h r (List.mem_cons_self r l)
    have htl : 0 ≤ sumSnd l := by
      refine List.sum_nonneg ?_
      intro x hx
      obtain ⟨p, hp, rfl⟩ := List.mem_map.mp hx
      exact h p (List.mem_cons_of_mem r hp)
    simp only [sumSnd, List.map_cons, List.sum_cons] at hsum
    have hr0 : r.2 = 0 := by
      have : sumSnd l = (l.map Prod.snd).sum := rfl
      omega
    have hl0 : sumSnd l = 0 := by
      have : sumSnd l = (l.map Prod.snd).sum := rfl
      omega
    intro p hp
    rcases List.mem_cons.mp hp with rfl | hp
    · exact hr0
    · exact ih (fun q hq => h q (List.mem_cons_of_mem r hq)) hl0 p hp

lemma sum_nonpos_of_mem (ys : List Int) (h : ∀ x ∈ ys, x ≤ 0) : ys.sum ≤ 0 := by
  induction ys with
  | nil => simp
  | cons y ys ih =>
    simp only [List.sum_cons]
    have h1 := h y (List.mem_cons_self y ys)
    have h2 := ih (fun x hx => h x (List.mem_cons_of_mem y hx))
    omega

lemma entries_zero_of_nonpos (l : List Bal) (h : ∀ p ∈ l, p.2 ≤ 0)
    (hsum : sumSnd l = 0) : ∀ p ∈ l, p.2 = 0 := by
  induction l with
  | nil => intro p hp; exact absurd hp (List.not_mem_nil p)
  | cons r l ih =>
    have hr : r.2 ≤ 0 := h r (List.mem_cons_self r l)
    have htl : sumSnd l ≤ 0 := by
      refine sum_nonpos_of_mem _ ?_
      intro x hx
      obtain ⟨p, hp, rfl⟩ := List.mem_map.mp hx
      exact h p (List.mem_cons_of_mem r hp)
    simp only [sumSnd, List.map_cons, List.sum_cons] at hsum
    have hr0 : r.2 = 0 := by
      have : sumSnd l = (l.map Prod.snd).sum := rfl
      omega
    have hl0 : sumSnd l = 0 := by
      have : sumSnd l = (l.map Prod.snd).sum := rfl
      omega
    intro p hp
    rcases List.mem_cons.mp hp with rfl | hp
    · exact hr0
    · exact ih (fun q hq => h q (List.mem_cons_of_mem r hq)) hl0 p hp

lemma sumSnd_filter_split (l : List Bal) :
    sumSnd (l.filter fun p => p.2 < 0) + sumSnd (l.filter fun p => 0 < p.2) = sumSnd l := by
  induction l with
  | nil => rfl
  | cons p l ih =>
    simp only [List.filter_cons, sumSnd, List.map_cons, List.sum_cons] at ih ⊢
    by_cases h1 : p.2 < 0
    · have h2 : ¬ 0 < p.2 := by omega
      simp only [decide_eq_true h1, decide_eq_false h2, if_true, Bool.false_eq_true, if_false,
        List.map_cons, List.sum_cons]
      omega
    · by_cases h2 : 0 < p.2
      · simp only [decide_eq_false h1, decide_eq_true h2, if_true, Bool.false_eq_true, if_false,
          List.map_cons, List.sum_cons]
        omega
      · have h3 : p.2 = 0 := by omega
        simp only [decide_eq_false h1, decide_eq_false h2, Bool.false_eq_true, if_false]
        omega

/-! ### The accounting invariant of the matcher loop -/

lemma sumSnd_set (l : List Bal) (i : Nat) (a : Bal) (h : i < l.length) :
    sumSnd (l.set i a) = sumSnd l - (l.getD i dflt).2 + a.2 := by
  induction l generalizing i with
  | nil => exact absurd h (Nat.not_lt_zero i)
  | cons p l ih =>
    cases i with
    | zero =>
      simp only [List.set, sumSnd, List.map_cons, List.sum_cons, List.getD_cons_zero]
      omega
    | succ i2 =>
      have h2 : i2 < l.length := Nat.lt_of_succ_lt_succ h
      simp only [List.set, sumSnd, List.map_cons, List.sum_cons, List.getD_cons_succ]
      have := ih i2 h2
      simp only [sumSnd] at this
      omega

lemma names_getD_mem (l : List Bal) (i : Nat) (hi : i < l.length) :
    (l.getD i dflt).1 ∈ l.map Prod.fst :=
  List.mem_map_of_mem Prod.fst (getD_mem l i hi)

lemma names_getD_ne (l : List Bal) (hn : (l.map Prod.fst).Nodup) (i k : Nat)
    (hik : i ≠ k) (hi : i < l.length) (hk : k < l.length) :
    (l.getD i dflt).1 ≠ (l.getD k dflt).1 := by
  rw [getD_eq_get _ _ hi, getD_eq_get _ _ hk]
  intro he
  have hmi : i < (l.map Prod.fst).length := by simpa using hi
  have hmk : k < (l.map Prod.fst).length := by simpa using hk
  have h2 : (l.map Prod.fst)[i] = (l.map Prod.fst)[k] := by
    rw [List.getElem_map, List.getElem_map]
    exact he
  exact hik ((@List.Nodup.getElem_inj_iff _ _ hn i hmi k hmk).mp h2)

/-- Accounting invariant of the matcher loop, relative to the initial sorted
debtor and creditor lists `D0` and `C0`: positions keep their names, every
current balance is its initial value plus the net effect of the emitted
transactions, transaction endpoints are debtor resp. creditor names, and
the combined total of both lists never changes. -/
structure AInv (D0 C0 : List Bal) (st : MState) : Prop where
  dlen : st.debtors.length = D0.length
  clen : st.creditors.length = C0.length
  dkey : ∀ k, (st.debtors.getD k dflt).1 = (D0.getD k dflt).1
  ckey : ∀ k, (st.creditors.getD k dflt).1 = (C0.getD k dflt).1
  dval : ∀ k, k < D0.length →
    (st.debtors.getD k dflt).2 = (D0.getD k dflt).2 + net st.txns (D0.getD k dflt).1
  cval : ∀ k, k < C0.length →
    (st.creditors.getD k dflt).2 = (C0.getD k dflt).2 + net st.txns (C0.getD k dflt).1
  tsrc : ∀ t ∈ st.txns, t.src ∈ D0.map Prod.fst
  tdst : ∀ t ∈ st.txns, t.dst ∈ C0.map Prod.fst
  bsum : sumSnd st.debtors + sumSnd st.creditors = sumSnd D0 + sumSnd C0

lemma AInv_init (bal : List Bal) :
    AInv (settleInit bal).debtors (settleInit bal).creditors (settleInit bal) := by
  refine ⟨rfl, rfl, fun k => rfl, fun k => rfl, ?_, ?_, ?_, ?_, rfl⟩
  · intro k hk
    have hnet : net (settleInit bal).txns ((settleInit bal).debtors.getD k dflt).1 = 0 := by
      simp [net, settleInit]
    rw [hnet]
    omega
  · intro k hk
    have hnet : net (settleInit bal).txns ((settleInit bal).creditors.getD k dflt).1 = 0 := by
      simp [net, settleInit]
    rw [hnet]
    omega
  · intro t ht
    exact absurd ht (List.not_mem_nil t)
  · intro t ht
    exact absurd ht (List.not_mem_nil t)

lemma step_AInv (D0 C0 : List Bal) (st : MState)
    (hND : (D0.map Prod.fst).Nodup) (hNC : (C0.map Prod.fst).Nodup)
    (hdisj : ∀ x, x ∈ D0.map Prod.fst → x ∉ C0.map Prod.fst)
    (hs : SInv st) (ha : AInv D0 C0 st) (hg : loopGuard st) :
    AInv D0 C0 (stepIter st) := by
  obtain ⟨hci, hcj⟩ := hg
  have hA := txAmount_pos st hs ⟨hci, hcj⟩
  have hDeq := stepIter_debtors st hA
  have hCeq := stepIter_creditors st hA
  have hTeq := stepIter_txns st hA
  have hiD : st.i < D0.length := by rw [← ha.dlen]; exact hci
  have hjC : st.j < C0.length := by rw [← ha.clen]; exact hcj
  have hdn : (curD st).1 = (D0.getD st.i dflt).1 := ha.dkey st.i
  have hcn : (curC st).1 = (C0.getD st.j dflt).1 := ha.ckey st.j
  have hsrcmem : (D0.getD st.i dflt).1 ∈ D0.map Prod.fst := names_getD_mem D0 st.i hiD
  have hdstmem : (C0.getD st.j dflt).1 ∈ C0.map Prod.fst := names_getD_mem C0 st.j hjC
  have hsd : (D0.getD st.i dflt).1 ≠ (C0.getD st.j dflt).1 := by
    intro he
    exact hdisj _ hsrcmem (he ▸ hdstmem)
  have hTeq2 : (stepIter st).txns = st.txns ++
      [⟨(D0.getD st.i dflt).1, (C0.getD st.j dflt).1, txAmount st⟩] := by
    rw [hTeq, hdn, hcn]
  have hvD : (stepIter st).debtors.getD st.i dflt =
      ((curD st).1, (curD st).2 + txAmount st) := by
    rw [hDeq]; exact getD_set_self _ _ _ hci
  have hvD2 : ((stepIter st).debtors.getD st.i dflt).2 = (curD st).2 + txAmount st := by
    rw [hvD]
  have hvD1 : ((stepIter st).debtors.getD st.i dflt).1 = (curD st).1 := by
    rw [hvD]
  have hvDk : ∀ k, k ≠ st.i →
      (stepIter st).debtors.getD k dflt = st.debtors.getD k dflt := by
    intro k hk
    rw [hDeq]; exact getD_set_ne _ _ _ _ (fun h => hk h.symm)
  have hvC : (stepIter st).creditors.getD st.j dflt =
      ((curC st).1, (curC st).2 - txAmount st) := by
    rw [hCeq]; exact getD_set_self _ _ _ hcj
  have hvC2 : ((stepIter st).creditors.getD st.j dflt).2 = (curC st).2 - txAmount st := by
    rw [hvC]
  have hvC1 : ((stepIter st).creditors.getD st.j dflt).1 = (curC st).1 := by
    rw [hvC]
  have hvCk : ∀ k, k ≠ st.j →
      (stepIter st).creditors.getD k dflt = st.creditors.getD k dflt := by
    intro k hk
    rw [hCeq]; exact getD_set_ne _ _ _ _ (fun h => hk h.symm)
  refine ⟨?_, ?_, ?_, ?_, ?_, ?_, ?_, ?_, ?_⟩
  · rw [hDeq, List.length_set]; exact ha.dlen
  · rw [hCeq, List.length_set]; exact ha.clen
  · intro k
    by_cases hk : k = st.i
    · subst hk
      rw [hvD1, hdn]
    · rw [hvDk k hk]
      exact ha.dkey k
  · intro k
    by_cases hk : k = st.j
    · subst hk
      rw [hvC1, hcn]
    · rw [hvCk k hk]
      exact ha.ckey k
  · intro k hk
    rw [hTeq2, net_append_one]
    by_cases hki : k = st.i
    · subst hki
      rw [hvD2]
      rw [if_pos rfl, if_neg (fun h => hsd (Eq.symm h))]
      have hamt : ((⟨(D0.getD st.i dflt).1, (C0.getD st.j dflt).1, txAmount st⟩ : Txn)).amount
          = txAmount st := rfl
      rw [hamt]
      have hc2 : (curD st).2 =
          (D0.getD st.i dflt).2 + net st.txns ((D0.getD st.i dflt).1) :=
        ha.dval st.i hiD
      omega
    · rw [hvDk k hki]
      rw [ha.dval k hk]
      have hne1 : ((⟨(D0.getD st.i dflt).1, (C0.getD st.j dflt).1, txAmount st⟩ : Txn)).src
          ≠ (D0.getD k dflt).1 :=
        names_getD_ne D0 hND st.i k (fun h => hki h.symm) hiD hk
      have hne2 : ((⟨(D0.getD st.i dflt).1, (C0.getD st.j dflt).1, txAmount st⟩ : Txn)).dst
          ≠ (D0.getD k dflt).1 := by
        intro he
        exact hdisj _ (names_getD_mem D0 k hk) (he ▸ hdstmem)
      rw [if_neg hne1, if_neg hne2]
      omega
  · intro k hk
    rw [hTeq2, net_append_one]
    by_cases hkj : k = st.j
    · subst hkj
      rw [hvC2]
      rw [if_neg hsd, if_pos rfl]
      have hamt : ((⟨(D0.getD st.i dflt).1, (C0.getD st.j dflt).1, txAmount st⟩ : Txn)).amount
          = txAmount st := rfl
      rw [hamt]
      have hc2 : (curC st).2 =
          (C0.getD st.j dflt).2 + net st.txns ((C0.getD st.j dflt).1) :=
        ha.cval st.j hjC
      omega
    · rw [hvCk k hkj]
      rw [ha.cval k hk]
      have hne1 : ((⟨(D0.getD st.i dflt).1, (C0.getD st.j dflt).1, txAmount st⟩ : Txn)).src
          ≠ (C0.getD k dflt).1 := by
        intro he
        have he2 : (D0.getD st.i dflt).1 = (C0.getD k dflt).1 := he
        refine hdisj _ hsrcmem ?_
        rw [he2]
        exact names_getD_mem C0 k hk
      have hne2 : ((⟨(D0.getD st.i dflt).1, (C0.getD st.j dflt).1, txAmount st⟩ : Txn)).dst
          ≠ (C0.getD k dflt).1 :=
        names_getD_ne C0 hNC st.j k (fun h => hkj h.symm) hjC hk
      rw [if_neg hne1, if_neg hne2]
      omega
  · intro t ht
    rw [hTeq2] at ht
    rcases List.mem_append.mp ht with ht | ht
    · exact ha.tsrc t ht
    · rw [List.mem_singleton] at ht
      subst ht
      exact hsrcmem
  · intro t ht
    rw [hTeq2] at ht
    rcases List.mem_append.mp ht with ht | ht
    · exact ha.tdst t ht
    · rw [List.mem_singleton] at ht
      subst ht
      exact hdstmem
  · rw [hDeq, hCeq, sumSnd_set st.debtors st.i _ hci, sumSnd_set st.creditors st.j _ hcj]
    have h1 : ((curD st).1, (curD st).2 + txAmount st).2 = (curD st).2 + txAmount st := rfl
    have h2 : ((curC st).1, (curC st).2 - txAmount st).2 = (curC st).2 - txAmount st := rfl
    rw [h1, h2]
    have hd0 : (curD st).2 = (st.debtors.getD st.i dflt).2 := rfl
    have hc0 : (curC st).2 = (st.creditors.getD st.j dflt).2 := rfl
    rw [hd0, hc0]
    have := ha.bsum
    omega

lemma settleLoop_AInv (D0 C0 : List Bal)
    (hND : (D0.map Prod.fst).Nodup) (hNC : (C0.map Prod.fst).Nodup)
    (hdisj : ∀ x, x ∈ D0.map Prod.fst → x ∉ C0.map Prod.fst) :
    ∀ (fuel : Nat) (st : MState), SInv st → AInv D0 C0 st →
      AInv D0 C0 (settleLoop fuel st) := by
  intro fuel
  induction fuel with
  | zero => intro st _ ha; exact ha
  | succ n ih =>
    intro st hs ha
    by_cases hg : loopGuard st
    · simp only [settleLoop, if_pos hg]
      exact ih _ (step_main st hs hg).1 (step_AInv D0 C0 st hND hNC hdisj hs ha hg)
    · simp only [settleLoop, if_neg hg]
      exact ha

/-! ### The matcher run on a zero-sum balances list -/

lemma settleRun_names (bal : List Bal) (hn : (bal.map Prod.fst).Nodup) :
    ((settleInit bal).debtors.map Prod.fst).Nodup ∧
    ((settleInit bal).creditors.map Prod.fst).Nodup ∧
    (∀ x, x ∈ (settleInit bal).debtors.map Prod.fst →
      x ∉ (settleInit bal).creditors.map Prod.fst) := by
  have hpD : ((settleInit bal).debtors).Perm (bal.filter fun p => p.2 < 0) := perm_sortAsc _
  have hpC : ((settleInit bal).creditors).Perm (bal.filter fun p => 0 < p.2) := perm_sortDesc _
  have hfD : ((bal.filter fun p => p.2 < 0).map Prod.fst).Nodup :=
    List.Nodup.sublist (List.Sublist.map Prod.fst (List.filter_sublist bal)) hn
  have hfC : ((bal.filter fun p => 0 < p.2).map Prod.fst).Nodup :=
    List.Nodup.sublist (List.Sublist.map Prod.fst (List.filter_sublist bal)) hn
  refine ⟨((hpD.map Prod.fst).nodup_iff).mpr hfD, ((hpC.map Prod.fst).nodup_iff).mpr hfC, ?_⟩
  intro x hx hx2
  have hx3 := (hpD.map Prod.fst).mem_iff.mp hx
  have hx4 := (hpC.map Prod.fst).mem_iff.mp hx2
  obtain ⟨p, hp, hp1⟩ := List.mem_map.mp hx3
  obtain ⟨q, hq, hq1⟩ := List.mem_map.mp hx4
  have hpneg : p.2 < 0 := by simpa using (List.mem_filter.mp hp).2
  have hqpos : 0 < q.2 := by simpa using (List.mem_filter.mp hq).2
  have hpb : p ∈ bal := List.mem_of_mem_filter hp
  have hqb : q ∈ bal := List.mem_of_mem_filter hq
  have hpq : p = q := key_inj bal hn p hpb q hqb (by rw [hp1, hq1])
  rw [hpq] at hpneg
  omega

lemma settleRun_final (bal : List Bal) (hn : (bal.map Prod.fst).Nodup) :
    SInv (settleRun bal) ∧
    AInv (settleInit bal).debtors (settleInit bal).creditors (settleRun bal) ∧
    ¬ loopGuard (settleRun bal) := by
  obtain ⟨hND, hNC, hdisj⟩ := settleRun_names bal hn
  have hs0 := SInv_settleInit bal
  refine ⟨settleLoop_SInv _ _ hs0,
    settleLoop_AInv _ _ hND hNC hdisj _ _ hs0 (AInv_init bal), ?_⟩
  refine settleLoop_terminates _ _ hs0 ?_
  have h0i : (settleInit bal).i = 0 := rfl
  have h0j : (settleInit bal).j = 0 := rfl
  rw [h0i, h0j]
  omega

lemma settleRun_all_zero (bal : List Bal) (hn : (bal.map Prod.fst).Nodup)
    (hz : sumSnd bal = 0) :
    (∀ k, k < (settleInit bal).debtors.length →
      ((settleRun bal).debtors.getD k dflt).2 = 0) ∧
    (∀ k, k < (settleInit bal).creditors.length →
      ((settleRun bal).creditors.getD k dflt).2 = 0) := by
  obtain ⟨hsF, haF, hng⟩ := settleRun_final bal hn
  have hzDC : sumSnd (settleInit bal).debtors + sumSnd (settleInit bal).creditors = 0 := by
    have h1 : sumSnd (settleInit bal).debtors = sumSnd (bal.filter fun p => p.2 < 0) :=
      ((perm_sortAsc _).map Prod.snd).sum_eq
    have h2 : sumSnd (settleInit bal).creditors = sumSnd (bal.filter fun p => 0 < p.2) :=
      ((perm_sortDesc _).map Prod.snd).sum_eq
    rw [h1, h2, sumSnd_filter_split]
    exact hz
  have hlenD : (settleRun bal).debtors.length = (settleInit bal).debtors.length := haF.dlen
  have hlenC : (settleRun bal).creditors.length = (settleInit bal).creditors.length := haF.clen
  rcases not_and_or.mp hng with hi | hj
  · have hiL : (settleRun bal).debtors.length ≤ (settleRun bal).i := Nat.le_of_not_lt hi
    have hdz : ∀ k, k < (settleRun bal).debtors.length →
        ((settleRun bal).debtors.getD k dflt).2 = 0 :=
      fun k hk => hsF.dzero k (lt_of_lt_of_le hk hiL)
    have hDsum : sumSnd (settleRun bal).debtors = 0 :=
      sumSnd_zero_of_mem _ (forall_mem_of_forall_getD _ _ hdz)
    have hCsum : sumSnd (settleRun bal).creditors = 0 := by
      have := haF.bsum
      omega
    have hcnn : ∀ p ∈ (settleRun bal).creditors, 0 ≤ p.2 := by
      refine forall_mem_of_forall_getD _ _ ?_
      intro k hk
      by_cases hkj : k < (settleRun bal).j
      · rw [hsF.czero k hkj]
      · exact le_of_lt (hsF.cpos k (Nat.le_of_not_lt hkj) hk)
    have hcz := entries_zero_of_nonneg _ hcnn hCsum
    constructor
    · intro k hk
      exact hdz k (by rw [hlenD]; exact hk)
    · intro k hk
      exact hcz _ (getD_mem _ k (by rw [hlenC]; exact hk))
  · have hjL : (settleRun bal).creditors.length ≤ (settleRun bal).j := Nat.le_of_not_lt hj
    have hcz : ∀ k, k < (settleRun bal).creditors.length →
        ((settleRun bal).creditors.getD k dflt).2 = 0 :=
      fun k hk => hsF.czero k (lt_of_lt_of_le hk hjL)
    have hCsum : sumSnd (settleRun bal).creditors = 0 :=
      sumSnd_zero_of_mem _ (forall_mem_of_forall_getD _ _ hcz)
    have hDsum : sumSnd (settleRun bal).debtors = 0 := by
      have := haF.bsum
      omega
    have hdnn : ∀ p ∈ (settleRun bal).debtors, p.2 ≤ 0 := by
      refine forall_mem_of_forall_getD _ _ ?_
      intro k hk
      by_cases hki : k < (settleRun bal).i
      · rw [hsF.dzero k hki]
      · exact le_of_lt (hsF.dneg k (Nat.le_of_not_lt hki) hk)
    have hdz2 := entries_zero_of_nonpos _ hdnn hDsum
    constructor
    · intro k hk
      exact hdz2 _ (getD_mem _ k (by rw [hlenD]; exact hk))
    · intro k hk
      exact hcz k (by rw [hlenC]; exact hk)

/-- Claim C3, counterexample: for the one-member group `[A]` with a single
10-yen expense with no targets, the balances are `[("A", 10)]` (non zero-sum),
the matcher emits no transaction, and applying the empty transaction list
leaves `A` at 10 ≠ 0 — so the claim fails without a zero-sum precondition. -/
theorem c3_counterexample :
    ¬ ∀ p ∈ applyTxns (balancesOf (allocate [⟨1, "A"⟩] [⟨"gear", 10, 1, []⟩]))
        (settle (balancesOf (allocate [⟨1, "A"⟩] [⟨"gear", 10, 1, []⟩]))),
      p.2 = 0 := by decide

/-- Claim C3 (amended): for a balances list with pairwise-distinct member
names whose total is zero, applying every transaction emitted by the
matcher (credit the source, debit the destination) zeroes every balance. -/
theorem c3_settlement_correct (bal : List Bal)
    (hn : (bal.map Prod.fst).Nodup) (hz : sumSnd bal = 0) :
    ∀ p ∈ applyTxns bal (settle bal), p.2 = 0 := by
  obtain ⟨hsF, haF, hng⟩ := settleRun_final bal hn
  obtain ⟨hdz, hcz⟩ := settleRun_all_zero bal hn hz
  have hkey : ∀ p ∈ bal, p.2 + net (settle bal) p.1 = 0 := by
    intro p hp
    rcases Int.lt_trichotomy p.2 0 with hneg | hzero | hpos
    · have hpD : p ∈ (settleInit bal).debtors := by
        refine (perm_sortAsc _).mem_iff.mpr ?_
        exact List.mem_filter.mpr ⟨hp, by simpa using hneg⟩
      obtain ⟨k, hk, he⟩ := List.mem_iff_getElem.mp hpD
      have hval := haF.dval k hk
      have hzero2 := hdz k hk
      have hgd : (settleInit bal).debtors.getD k dflt = p := by
        rw [getD_eq_get _ _ hk, he]
      rw [hgd] at hval
      have hst : net (settle bal) p.1 = net (settleRun bal).txns p.1 := rfl
      rw [hst]
      omega
    · have hnet : net (settle bal) p.1 = 0 := by
        refine net_zero _ _ ?_
        intro t ht
        constructor
        · intro he
          have hsm := haF.tsrc t ht
          rw [he] at hsm
          obtain ⟨q, hq, hq1⟩ := List.mem_map.mp hsm
          have hqf := (perm_sortAsc _).mem_iff.mp hq
          have hqneg : q.2 < 0 := by simpa using (List.mem_filter.mp hqf).2
          have hqbal : q ∈ bal := List.mem_of_mem_filter hqf
          have hqp : q = p := key_inj bal hn q hqbal p hp hq1
          rw [hqp] at hqneg
          omega
        · intro he
          have hsm := haF.tdst t ht
          rw [he] at hsm
          obtain ⟨q, hq, hq1⟩ := List.mem_map.mp hsm
          have hqf := (perm_sortDesc _).mem_iff.mp hq
          have hqpos : 0 < q.2 := by simpa using (List.mem_filter.mp hqf).2
          have hqbal : q ∈ bal := List.mem_of_mem_filter hqf
          have hqp : q = p := key_inj bal hn q hqbal p hp hq1
          rw [hqp] at hqpos
          omega
      rw [hnet]
      omega
    · have hpC : p ∈ (settleInit bal).creditors := by
        refine (perm_sortDesc _).mem_iff.mpr ?_
        exact List.mem_filter.mpr ⟨hp, by simpa using hpos⟩
      obtain ⟨k, hk, he⟩ := List.mem_iff_getElem.mp hpC
      have hval := haF.cval k hk
      have hzero2 := hcz k hk
      have hgd : (settleInit bal).creditors.getD k dflt = p := by
        rw [getD_eq_get _ _ hk, he]
      rw [hgd] at hval
      have hst : net (settle bal) p.1 = net (settleRun bal).txns p.1 := rfl
      rw [hst]
      omega
  rw [applyTxns_eq_map]
  intro q hq
  obtain ⟨p, hp, rfl⟩ := List.mem_map.mp hq
  exact hkey p hp

/-- Witness for C3 (amended): balances `A = -5`, `B = 5`; the matcher emits
`A → B` for 5, and the amended theorem applied at the concrete entry
`("A", 0)` of the applied map confirms it is settled. -/
theorem c3_witness :
    applyTxns [("A", -5), ("B", 5)] (settle [("A", -5), ("B", 5)]) = [("A", 0), ("B", 0)] ∧
    (("A", 0) : Bal).2 = 0 :=
  ⟨by decide,
   c3_settlement_correct [("A", -5), ("B", 5)] (by decide) (by decide) ("A", 0) (by decide)⟩

/-- Claim C4, counterexample: on the non-zero-sum input `[("A", 5)]` the
matcher does not fail — it returns the (empty) transaction list produced
when the debtor list is exhausted immediately. -/
theorem c4_counterexample :
    sumSnd [("A", 5)] ≠ 0 ∧ settle [("A", 5)] = [] := by
  constructor
  · decide
  · decide

/-- Claim C4 (amended): the matcher never raises on non-zero-sum input; it
returns the transactions emitted before one cursor ran out, and that
partial plan leaves at least one balance unsettled: for distinct names and
`sum ≠ 0`, applying the emitted transactions cannot zero every balance. -/
theorem c4_partial_plan (bal : List Bal)
    (hn : (bal.map Prod.fst).Nodup) (hz : sumSnd bal ≠ 0) :
    ¬ ∀ p ∈ applyTxns bal (settle bal), p.2 = 0 := by
  intro hall
  obtain ⟨hsF, haF, hng⟩ := settleRun_final bal hn
  have hmem : ∀ t ∈ settle bal, t.src ∈ bal.map Prod.fst ∧ t.dst ∈ bal.map Prod.fst := by
    intro t ht
    constructor
    · have hsm := haF.tsrc t ht
      obtain ⟨q, hq, hq1⟩ := List.mem_map.mp hsm
      have hqb : q ∈ bal := List.mem_of_mem_filter ((perm_sortAsc _).mem_iff.mp hq)
      rw [← hq1]
      exact List.mem_map_of_mem Prod.fst hqb
    · have hsm := haF.tdst t ht
      obtain ⟨q, hq, hq1⟩ := List.mem_map.mp hsm
      have hqb : q ∈ bal := List.mem_of_mem_filter ((perm_sortDesc _).mem_iff.mp hq)
      rw [← hq1]
      exact List.mem_map_of_mem Prod.fst hqb
  have happ : sumSnd (applyTxns bal (settle bal)) = sumSnd bal := by
    rw [applyTxns_eq_map, sumSnd_map_add, sum_net bal hn (settle bal) hmem]
    omega
  have hzero : sumSnd (applyTxns bal (settle bal)) = 0 := sumSnd_zero_of_mem _ hall
  rw [happ] at hzero
  exact hz hzero

/-- Witness for C4 (amended): balances `A = 5`, `B = -2` sum to 3; the one
emitted transaction `B → A` for 2 leaves `A` at 3, so the settled-check
decides to `false`. -/
theorem c4_witness :
    @decide (∀ p ∈ applyTxns [("A", 5), ("B", -2)] (settle [("A", 5), ("B", -2)]), p.2 = 0)
      (List.decidableBAll _ _) = false :=
  decide_eq_false (c4_partial_plan [("A", 5), ("B", -2)] (by decide) (by decide))

/-- Claim C8, counterexample: the `app.py` variant computes
`per_person = total / len(members)` with true division; for payments
`A: 7, B: 3, C: 0` the total 10 over 3 members gives `10 / 3`, which is not
an integer — so not every division of the engine is exact integer
arithmetic. -/
theorem c8_counterexample :
    appPerPerson [("A", 7), ("B", 3), ("C", 0)] = 10 / 3 ∧
    ¬ ∃ z : ℤ, appPerPerson [("A", 7), ("B", 3), ("C", 0)] = (z : ℚ) := by
  have hs : appSummary [("A", 7), ("B", 3), ("C", 0)] = [("A", 7), ("B", 3), ("C", 0)] := by
    decide
  have h1 : appPerPerson [("A", 7), ("B", 3), ("C", 0)] = 10 / 3 := by
    rw [appPerPerson, hs]
    norm_num
  refine ⟨h1, ?_⟩
  rintro ⟨z, hz⟩
  rw [h1] at hz
  have h2 : (10 : ℚ) = 3 * (z : ℚ) := by
    field_simp at hz
    linarith [hz]
  have h3 : (10 : ℤ) = 3 * z := by exact_mod_cast h2
  omega

/-- Claim C8 (amended, `main.py` side): the allocator's split uses integer
floor division and remainder only, and loses no fraction — processing one
expense adds exactly its amount to the total owed and to the total paid. -/
theorem c8_exact_integer_split (s : SettleMap) (e : Expense) (hnd : (keysOf s).Nodup)
    (hp : hasKey s e.payer_id = true) (hne : e.targets ≠ [])
    (hts : ∀ t ∈ e.targets, hasKey s t.id = true) :
    sumOwed (applyExpense s e) = sumOwed s + e.amount ∧
    sumPaid (applyExpense s e) = sumPaid s + e.amount := by
  obtain ⟨h1, h2⟩ := sums_applyExpense s e hnd hp hne hts
  exact ⟨h2, h1⟩

/-- Witness for C8 (amended): a 10-yen expense over three targets
distributes exactly 10 in owed (4 + 3 + 3). -/
theorem c8_witness :
    sumOwed (applyExpense (initSettlement [⟨1, "A"⟩, ⟨2, "B"⟩, ⟨3, "C"⟩])
      ⟨"party", 10, 1, [⟨1, "A"⟩, ⟨2, "B"⟩, ⟨3, "C"⟩]⟩) =
    sumOwed (initSettlement [⟨1, "A"⟩, ⟨2, "B"⟩, ⟨3, "C"⟩]) + 10 :=
  (c8_exact_integer_split (initSettlement [⟨1, "A"⟩, ⟨2, "B"⟩, ⟨3, "C"⟩])
    ⟨"party", 10, 1, [⟨1, "A"⟩, ⟨2, "B"⟩, ⟨3, "C"⟩]⟩
    (by decide) (by decide) (by decide) (by decide)).1

/-- Witness for C9 at a concrete non-zero-sum input: the loop still exits,
so the guard decides to `false` on the final state. -/
theorem c9_witness : decide (loopGuard (settleRun [("A", -3), ("B", 7)])) = false :=
  decide_eq_false (c9_loop_terminates [("A", -3), ("B", 7)])
